import Mathlib

/-!
Verification of the migrateme PostgreSQL schema-migration engine.

The Go sources are shallowly embedded: pure Go functions become Lean
functions on `String` and `List`; the database ledger and the migrations
directory become explicit values threaded through the embedded operations;
Go map iteration, whose order is unspecified, is modelled by association
lists (all properties proved below are independent of iteration order and
the chosen enumeration is documented at each definition).

Go standard-library string routines used by the sources are reproduced
here on `String.data` character lists (`strToLower`, `strTrimSpace`, ...).
Case mapping is the ASCII mapping of `Char.toLower` and whitespace is the
Latin-1 part of Go `unicode.IsSpace`; the repository only feeds ASCII
identifiers, SQL text and file names through these helpers.
-/

/-! ## Go string primitives -/

/-- Character test of Go `unicode.IsSpace`, restricted to the Latin-1
range (tab, newline, vertical tab, form feed, carriage return, space,
next line, no-break space). -/
def isSpaceGo (c : Char) : Bool :=
  decide (c.toNat = 9 ∨ c.toNat = 10 ∨ c.toNat = 11 ∨ c.toNat = 12 ∨
    c.toNat = 13 ∨ c.toNat = 32 ∨ c.toNat = 133 ∨ c.toNat = 160)

/-- Go `strings.ToLower` (ASCII case mapping). -/
def strToLower (s : String) : String := ⟨s.data.map Char.toLower⟩

/-- Go `strings.ToUpper` (ASCII case mapping). -/
def strToUpper (s : String) : String := ⟨s.data.map Char.toUpper⟩

/-- Left part of Go `strings.TrimSpace`. -/
def trimLeftList (l : List Char) : List Char := l.dropWhile isSpaceGo

/-- Right part of Go `strings.TrimSpace`. -/
def trimRightList (l : List Char) : List Char :=
  (l.reverse.dropWhile isSpaceGo).reverse

/-- Go `strings.TrimSpace`: drop leading and trailing white space. -/
def strTrimSpace (s : String) : String :=
  ⟨trimRightList (trimLeftList s.data)⟩

/-- Go `strings.HasSuffix`. -/
def strHasSuffix (s suf : String) : Bool :=
  decide (suf.data.length ≤ s.data.length) &&
    decide (s.data.drop (s.data.length - suf.data.length) = suf.data)

/-- Go `strings.TrimSuffix`. -/
def strTrimSuffix (s suf : String) : String :=
  if strHasSuffix s suf then ⟨s.data.take (s.data.length - suf.data.length)⟩
  else s

/-- Go `strings.HasPrefix`. -/
def strStartsWith (s p : String) : Bool :=
  decide (s.data.take p.data.length = p.data)

/-- Drop the first `n` characters; with a `strStartsWith` guard this is
Go `strings.TrimPrefix`. -/
def strDrop (s : String) (n : Nat) : String := ⟨s.data.drop n⟩

/-- Core of Go `strings.Split` for a one-character separator. -/
def splitCharList (sep : Char) : List Char → List (List Char)
  | [] => [[]]
  | c :: rest =>
    match splitCharList sep rest with
    | [] => [[]]
    | h :: t => if c = sep then [] :: h :: t else (c :: h) :: t

/-- Go `strings.Split` with a one-character separator (the sources only
split on `","` and `"."`). -/
def strSplitChar (sep : Char) (s : String) : List String :=
  (splitCharList sep s.data).map fun l => ⟨l⟩

/-! ## Schema data model (pkg/migrate) -/

/-- Go struct `ForeignKey`; `OnActionType` is a string type. -/
structure ForeignKey where
  Table : String
  Column : String
  OnDelete : String
  OnUpdate : String
deriving DecidableEq

/-- Go struct `ColumnAttributes`.  Go pointer fields (`*string`,
`*ForeignKey`) are modelled as `Option`; only the pointed-to values are
observable in the embedded operations. -/
structure ColumnAttributes where
  PgType : String
  NotNull : Bool
  Unique : Bool
  IsPK : Bool
  Default : Option String
  ForeignKey : Option ForeignKey
  ConstraintName : Option String
deriving DecidableEq

/-- Go struct `ColumnMeta`. -/
structure ColumnMeta where
  FieldName : String
  ColumnName : String
  Idx : Int
  Attrs : ColumnAttributes
deriving DecidableEq

/-- Go struct `TableSchema`. -/
structure TableSchema where
  TableName : String
  Columns : List ColumnMeta
deriving DecidableEq

/-- Go struct `TableDiff`. -/
structure TableDiff where
  Up : List String
  Down : List String
deriving DecidableEq

/-- Method `TableDiff.IsEmpty`: both statement lists are empty. -/
def TableDiff.IsEmpty (d : TableDiff) : Bool :=
  d.Up.length == 0 && d.Down.length == 0

/-! ## Normalizer (pkg/migrate, NormalizeSchema) -/

/-- Go `normalizePgType`: trim, lower-case, collapse varchar aliases. -/
def normalizePgType (t : String) : String :=
  let t := strToLower (strTrimSpace t)
  if t = "character varying" ∨ t = "varchar" ∨ t = "varchar()" ∨
      t = "varchar(255)" then "varchar"
  else t

/-- Go `normalizeAction`: trim, upper-case, empty becomes NO ACTION. -/
def normalizeAction (a : String) : String :=
  let a := strToUpper (strTrimSpace a)
  if a = "" then "NO ACTION" else a

/-- Go `normalizeDefault`: trim, strip a trailing `::text` then a trailing
`::varchar`, then lower-case.  Note the stripping happens before the
lower-casing, exactly as in the source. -/
def normalizeDefault : Option String → Option String
  | none => none
  | some d =>
    let v := strTrimSpace d
    let v := strTrimSuffix v "::text"
    let v := strTrimSuffix v "::varchar"
    some (strToLower v)

/-- Body of the per-column loop of Go `NormalizeSchema`: the column value
written back into `out.Columns[i]`. -/
def normalizeColumn (c : ColumnMeta) : ColumnMeta :=
  { c with Attrs := { c.Attrs with
      PgType := normalizePgType c.Attrs.PgType
      Default := normalizeDefault c.Attrs.Default
      ForeignKey := c.Attrs.ForeignKey.map fun fk =>
        { Table := strToLower fk.Table
          Column := strToLower fk.Column
          OnDelete := normalizeAction fk.OnDelete
          OnUpdate := normalizeAction fk.OnUpdate } } }

/-- Go `NormalizeSchema` (the returned value): every column is rewritten
by `normalizeColumn`. -/
def NormalizeSchema (s : TableSchema) : TableSchema :=
  { s with Columns := s.Columns.map normalizeColumn }

/-- Value of the *argument* `s` as observed by the caller after
`NormalizeSchema(s)` returns.  In the Go source `out := s` copies only the
slice header, so `out.Columns` aliases the caller array of `s.Columns`;
the loop assigns `out.Columns[i]` for every index `i` (and mutates the
pointed-to `ForeignKey` record in place), hence after the call the caller
sees the normalized columns in `s` as well. -/
def NormalizeSchemaArgAfter (s : TableSchema) : TableSchema :=
  { s with Columns := s.Columns.map normalizeColumn }


/-! ## Schema Builder (pkg/schema/builder.go) -/

/-- Kinds of Go types distinguished by `inferPgType` (reflect.Kind). -/
inductive GoKind where
  | string | int | int8 | int16 | int32 | int64 | bool
  | float32 | float64 | struct | uint8 | other
deriving DecidableEq

/-- Shape of a `reflect.Type` as far as `inferPgType` inspects it: the
full type name, the kind, and the element type for slice, array and
pointer types. -/
inductive GoType where
  | base (fullName : String) (kind : GoKind)
  | slice (fullName : String) (elem : GoType)
  | array (fullName : String) (elem : GoType)
  | ptr (fullName : String) (elem : GoType)
deriving DecidableEq

/-- The `fieldType.String()` value. -/
def GoType.fullName : GoType → String
  | .base n _ => n
  | .slice n _ => n
  | .array n _ => n
  | .ptr n _ => n

/-- Test `fieldType.Elem().Kind() == reflect.Uint8`. -/
def GoType.kindIsUint8 : GoType → Bool
  | .base _ .uint8 => true
  | _ => false

/-- Go `inferPgType`: map a Go field type to a PostgreSQL type name. -/
def inferPgType (t : GoType) : String :=
  if t.fullName = "time.Time" then "timestamptz"
  else if t.fullName = "uuid.UUID" then "uuid"
  else
    match t with
    | .base _ k =>
      match k with
      | .string => "text"
      | .int => "integer"
      | .int64 => "integer"
      | .int32 => "integer"
      | .int16 => "integer"
      | .int8 => "integer"
      | .bool => "boolean"
      | .float32 => "real"
      | .float64 => "real"
      | .struct => "jsonb"
      | _ => "text"
    | .slice _ e => if e.kindIsUint8 then "bytea" else "jsonb"
    | .array _ e => if e.kindIsUint8 then "bytea" else "jsonb"
    | .ptr _ e => inferPgType e

/-- One iteration of the option switch shared verbatim by the loops of Go
`parseTag` (builder.go) and `parseColumnTag` (the EntityInfo builder):
both switches have identical case lists. -/
def applyTagOption (attrs : ColumnAttributes) (p : String) : ColumnAttributes :=
  if p = "pk" then { attrs with IsPK := true, NotNull := true }
  else if p = "notnull" then { attrs with NotNull := true }
  else if p = "unique" then { attrs with Unique := true }
  else if strStartsWith p "type=" then { attrs with PgType := strDrop p 5 }
  else if strStartsWith p "default=" then
    { attrs with Default := some (strDrop p 8) }
  else if strStartsWith p "fk=" then
    match strSplitChar '.' (strDrop p 3) with
    | [a, b] => { attrs with ForeignKey := some ⟨a, b, "", ""⟩ }
    | _ => attrs
  else if strStartsWith p "delete=" then
    match attrs.ForeignKey with
    | some fk =>
      let nfk : ForeignKey := { fk with OnDelete := strToUpper (strDrop p 7) }
      { attrs with ForeignKey := some nfk }
    | none => attrs
  else if strStartsWith p "update=" then
    match attrs.ForeignKey with
    | some fk =>
      let nfk : ForeignKey := { fk with OnUpdate := strToUpper (strDrop p 7) }
      { attrs with ForeignKey := some nfk }
    | none => attrs
  else attrs

/-- Zero value of `ColumnAttributes` (Go `migrate.ColumnAttributes{}`). -/
def emptyAttrs : ColumnAttributes := ⟨"", false, false, false, none, none, none⟩

/-- Go `parseTag` of builder.go: parse a `db` tag value together with the
Go field type; when no `type=` option was given the pg_type falls back to
`inferPgType fieldType`. -/
def parseTag (tag : String) (fieldType : GoType) : String × ColumnAttributes :=
  match strSplitChar ',' tag with
  | [] => ("", emptyAttrs)
  | name :: rest =>
    if name = "" ∨ name = "-" then ("", emptyAttrs)
    else
      let attrs := rest.foldl applyTagOption emptyAttrs
      let attrs :=
        if attrs.PgType = "" then { attrs with PgType := inferPgType fieldType }
        else attrs
      (name, attrs)

/-- Go `indexOfSub` models `strings.Index` (first index of a substring,
`none` for the -1 result). -/
def indexOfSub : List Char → List Char → Option Nat
  | [], pat => if pat = [] then some 0 else none
  | c :: rest, pat =>
    if pat.isPrefixOf (c :: rest) then some 0
    else (indexOfSub rest pat).map (· + 1)

/-- Go `extractTag` of the EntityInfo builder: extract the value of
`key:"..."` from a raw struct tag. -/
def extractTag (tag key : String) : String :=
  let needle := key ++ ":\""
  match indexOfSub tag.data needle.data with
  | none => ""
  | some idx =>
    let rest := tag.data.drop (idx + needle.data.length)
    match indexOfSub rest ['"'] with
    | none => ""
    | some e => ⟨rest.take e⟩

/-- Go `parseColumnTag` of the EntityInfo builder (the Builder the spec
describes): no host-type information is available, so a missing `type=`
option falls back to the literal `text`. -/
def parseColumnTag (tag : String) : ColumnAttributes :=
  let raw := extractTag tag "db"
  if raw = "" ∨ raw = "-" then emptyAttrs
  else
    match strSplitChar ',' raw with
    | [] => emptyAttrs
    | _ :: rest =>
      let attrs := rest.foldl applyTagOption emptyAttrs
      if attrs.PgType = "" then { attrs with PgType := "text" } else attrs


/-! ## Diff generator (pkg/schema/diff.go)

The two Go closures `pushUp` (append to `mig.Up`) and `pushDownFront`
(prepend to `mig.Down`) become state-passing functions on `TableDiff`;
each `handle*` method of `DiffGenerator` becomes a function
`TableDiff → TableDiff`.  Go maps of columns become association lists in
first-insertion order with overwrite semantics (`makeColumnMap`); Go map
iteration order is unspecified, and every property proved below is
independent of the iteration order. -/

/-- Go `quoteIdent`: double internal double quotes, wrap in quotes.  The
inner mapping is `strings.ReplaceAll` with the one-character pattern used
in the source. -/
def quoteIdent (name : String) : String :=
  let escaped : String :=
    ⟨(name.data.map fun c => if c = '"' then ['"', '"'] else [c]).flatten⟩
  "\"" ++ escaped ++ "\""

/-- Go `pkConstraintName`. -/
def pkConstraintName (table : String) : String := table ++ "_pkey"

/-- Go `uniqueConstraintName`. -/
def uniqueConstraintName (table column : String) : String :=
  "uc_" ++ table ++ "_" ++ column

/-- Go `fkConstraintName`. -/
def fkConstraintName (table column : String) : String :=
  "fk_" ++ table ++ "_" ++ column

/-- Go `addConstraintIfNotExists`: wrap an ADD CONSTRAINT statement in a
pg_constraint presence guard. -/
def addConstraintIfNotExists (stmt constraintName : String) : String :=
  "DO $$ BEGIN\n  IF NOT EXISTS (SELECT 1 FROM pg_constraint WHERE conname = \x27"
    ++ constraintName ++ "\x27) THEN\n    " ++ stmt ++ ";\n  END IF;\nEND $$;"

/-- Go `dropConstraintIfExists`. -/
def dropConstraintIfExists (table constraintName : String) : String :=
  "ALTER TABLE " ++ quoteIdent table ++ " DROP CONSTRAINT IF EXISTS "
    ++ quoteIdent constraintName

/-- Go `getForeignKeyAction`. -/
def getForeignKeyAction (action : String) : String :=
  if action = "" then "NO ACTION" else action

/-- The `DO $$ ... SET NOT NULL ... $$` guard; the Go source repeats this
format string verbatim at its three emit sites. -/
def notNullGuard (table column : String) : String :=
  "DO $$ BEGIN\n  IF NOT EXISTS (SELECT 1 FROM " ++ quoteIdent table
    ++ " WHERE " ++ quoteIdent column ++ " IS NULL) THEN\n    ALTER TABLE "
    ++ quoteIdent table ++ " ALTER COLUMN " ++ quoteIdent column
    ++ " SET NOT NULL;\n  END IF;\nEND $$;"

/-- The ADD CONSTRAINT ... FOREIGN KEY format string, repeated verbatim at
the three FK emit sites of the Go source. -/
def addFKStatement (table constrName colName : String) (fk : ForeignKey) : String :=
  "ALTER TABLE " ++ quoteIdent table ++ " ADD CONSTRAINT "
    ++ quoteIdent constrName ++ " FOREIGN KEY (" ++ quoteIdent colName
    ++ ") REFERENCES " ++ quoteIdent fk.Table ++ "(" ++ quoteIdent fk.Column
    ++ ") ON DELETE " ++ getForeignKeyAction fk.OnDelete
    ++ " ON UPDATE " ++ getForeignKeyAction fk.OnUpdate

/-- The Go closure `pushUp`. -/
def pushUp (mig : TableDiff) (s : String) : TableDiff :=
  { mig with Up := mig.Up ++ [s] }

/-- The Go closure `pushDownFront`. -/
def pushDownFront (mig : TableDiff) (s : String) : TableDiff :=
  { mig with Down := s :: mig.Down }

/-- Go `DiffGenerator.getConstraintName`: prefer the real catalog name. -/
def getConstraintName (col : ColumnMeta) (defaultName : String) : String :=
  match col.Attrs.ConstraintName with
  | some n => n
  | none => defaultName

/-- Go `DiffGenerator.buildColumnDefinition`. -/
def buildColumnDefinition (col : ColumnMeta) : String :=
  let d := quoteIdent col.ColumnName ++ " " ++ col.Attrs.PgType
  let d := if col.Attrs.NotNull then d ++ " NOT NULL" else d
  match col.Attrs.Default with
  | some v => d ++ " DEFAULT " ++ v
  | none => d

/-- Go `DiffGenerator.addUniqueConstraint`. -/
def addUniqueConstraint (table : String) (col : ColumnMeta) (mig : TableDiff) :
    TableDiff :=
  let constrName := uniqueConstraintName table col.ColumnName
  let addU := "ALTER TABLE " ++ quoteIdent table ++ " ADD CONSTRAINT "
    ++ quoteIdent constrName ++ " UNIQUE (" ++ quoteIdent col.ColumnName ++ ")"
  let mig := pushUp mig (addConstraintIfNotExists addU constrName)
  pushDownFront mig (dropConstraintIfExists table constrName)

/-- Go `DiffGenerator.dropUniqueConstraint`. -/
def dropUniqueConstraint (table : String) (col : ColumnMeta) (mig : TableDiff) :
    TableDiff :=
  let constrName := getConstraintName col (uniqueConstraintName table col.ColumnName)
  let mig := pushUp mig (dropConstraintIfExists table constrName)
  pushDownFront mig ("ALTER TABLE " ++ quoteIdent table ++ " ADD CONSTRAINT "
    ++ quoteIdent constrName ++ " UNIQUE (" ++ quoteIdent col.ColumnName ++ ")")

/-- Go `DiffGenerator.addForeignKey`.  The source dereferences
`col.Attrs.ForeignKey` unconditionally; every call site guards on a
present foreign key, so the `none` case is unreachable and modelled as a
no-op. -/
def addForeignKey (table : String) (col : ColumnMeta) (mig : TableDiff) :
    TableDiff :=
  match col.Attrs.ForeignKey with
  | none => mig
  | some fk =>
    let constrName := fkConstraintName table col.ColumnName
    let addFK := addFKStatement table constrName col.ColumnName fk
    { mig with
        Up := mig.Up ++ [addConstraintIfNotExists addFK constrName]
        Down := dropConstraintIfExists table constrName :: mig.Down }

/-- Go `DiffGenerator.handleAddedColumn`. -/
def handleAddedColumn (table : String) (col : ColumnMeta) (mig : TableDiff) :
    TableDiff :=
  let stmt := "ALTER TABLE " ++ quoteIdent table ++ " ADD COLUMN IF NOT EXISTS "
    ++ quoteIdent col.ColumnName ++ " " ++ col.Attrs.PgType
  let stmt := match col.Attrs.Default with
    | some v => stmt ++ " DEFAULT " ++ v
    | none => stmt
  let mig :=
    if col.Attrs.NotNull then
      match col.Attrs.Default with
      | none => pushUp (pushUp mig stmt) (notNullGuard table col.ColumnName)
      | some _ => pushUp mig (stmt ++ " NOT NULL")
    else pushUp mig stmt
  let mig := pushDownFront mig ("ALTER TABLE " ++ quoteIdent table
    ++ " DROP COLUMN IF EXISTS " ++ quoteIdent col.ColumnName)
  let mig := if col.Attrs.Unique then addUniqueConstraint table col mig else mig
  if col.Attrs.ForeignKey.isSome then addForeignKey table col mig else mig

/-- Go `DiffGenerator.handleForeignKeyChanges`. -/
def handleForeignKeyChanges (table : String) (oldCol newCol : ColumnMeta)
    (mig : TableDiff) : TableDiff :=
  let oldFK := oldCol.Attrs.ForeignKey
  let newFK := newCol.Attrs.ForeignKey
  let fkChanged : Bool :=
    match oldFK, newFK with
    | none, none => false
    | some _, none => true
    | none, some _ => true
    | some a, some b =>
      decide (a.Table ≠ b.Table ∨ a.Column ≠ b.Column ∨
        a.OnDelete ≠ b.OnDelete ∨ a.OnUpdate ≠ b.OnUpdate)
  if fkChanged then
    let mig :=
      match oldFK with
      | some ofk =>
        let constrName := getConstraintName oldCol (fkConstraintName table oldCol.ColumnName)
        pushDownFront (pushUp mig (dropConstraintIfExists table constrName))
          (addFKStatement table constrName oldCol.ColumnName ofk)
      | none => mig
    if newFK.isSome then addForeignKey table newCol mig else mig
  else mig

/-- Type block of Go `DiffGenerator.handleChangedColumn` (the first
`if` of the method body). -/
def changedColType (table : String) (oldCol newCol : ColumnMeta)
    (mig : TableDiff) : TableDiff :=
  if oldCol.Attrs.PgType ≠ newCol.Attrs.PgType then
    pushDownFront
      (pushUp mig ("ALTER TABLE " ++ quoteIdent table ++ " ALTER COLUMN "
        ++ quoteIdent newCol.ColumnName ++ " TYPE " ++ newCol.Attrs.PgType
        ++ " USING " ++ quoteIdent newCol.ColumnName ++ "::" ++ newCol.Attrs.PgType))
      ("ALTER TABLE " ++ quoteIdent table ++ " ALTER COLUMN "
        ++ quoteIdent newCol.ColumnName ++ " TYPE " ++ oldCol.Attrs.PgType
        ++ " USING " ++ quoteIdent newCol.ColumnName ++ "::" ++ oldCol.Attrs.PgType)
  else mig

/-- Nullability block of Go `DiffGenerator.handleChangedColumn`. -/
def changedColNotNull (table : String) (oldCol newCol : ColumnMeta)
    (mig : TableDiff) : TableDiff :=
  if oldCol.Attrs.NotNull ≠ newCol.Attrs.NotNull then
    if newCol.Attrs.NotNull then
      pushDownFront (pushUp mig (notNullGuard table newCol.ColumnName))
        ("ALTER TABLE " ++ quoteIdent table ++ " ALTER COLUMN "
          ++ quoteIdent newCol.ColumnName ++ " DROP NOT NULL")
    else
      pushDownFront (pushUp mig ("ALTER TABLE " ++ quoteIdent table
          ++ " ALTER COLUMN " ++ quoteIdent newCol.ColumnName ++ " DROP NOT NULL"))
        (notNullGuard table newCol.ColumnName)
  else mig

/-- Default block of Go `DiffGenerator.handleChangedColumn`: `oldDef` and
`newDef` are the empty-string views of the optional defaults. -/
def changedColDefault (table : String) (oldCol newCol : ColumnMeta)
    (mig : TableDiff) : TableDiff :=
  let oldDef := match oldCol.Attrs.Default with
    | some v => v
    | none => ""
  let newDef := match newCol.Attrs.Default with
    | some v => v
    | none => ""
  if oldDef ≠ newDef then
    let mig :=
      match newCol.Attrs.Default with
      | some _ => pushUp mig ("ALTER TABLE " ++ quoteIdent table
          ++ " ALTER COLUMN " ++ quoteIdent newCol.ColumnName
          ++ " SET DEFAULT " ++ newDef)
      | none => pushUp mig ("ALTER TABLE " ++ quoteIdent table
          ++ " ALTER COLUMN " ++ quoteIdent newCol.ColumnName ++ " DROP DEFAULT")
    match oldCol.Attrs.Default with
    | some _ => pushDownFront mig ("ALTER TABLE " ++ quoteIdent table
        ++ " ALTER COLUMN " ++ quoteIdent newCol.ColumnName
        ++ " SET DEFAULT " ++ oldDef)
    | none => pushDownFront mig ("ALTER TABLE " ++ quoteIdent table
        ++ " ALTER COLUMN " ++ quoteIdent newCol.ColumnName ++ " DROP DEFAULT")
  else mig

/-- Uniqueness block of Go `DiffGenerator.handleChangedColumn`. -/
def changedColUnique (table : String) (oldCol newCol : ColumnMeta)
    (mig : TableDiff) : TableDiff :=
  if oldCol.Attrs.Unique ≠ newCol.Attrs.Unique then
    if newCol.Attrs.Unique then addUniqueConstraint table newCol mig
    else dropUniqueConstraint table oldCol mig
  else mig

/-- Go `DiffGenerator.handleChangedColumn`: the method body rebinds `mig`
through the four blocks above in fixed order (type, nullability, default,
uniqueness) and ends with the foreign-key comparison. -/
def handleChangedColumn (table : String) (oldCol newCol : ColumnMeta)
    (mig : TableDiff) : TableDiff :=
  handleForeignKeyChanges table oldCol newCol
    (changedColUnique table oldCol newCol
      (changedColDefault table oldCol newCol
        (changedColNotNull table oldCol newCol
          (changedColType table oldCol newCol mig))))

/-- Go `DiffGenerator.handleRemovedColumn`: one DROP COLUMN up statement
and one compound reconstruction down statement. -/
def handleRemovedColumn (table : String) (oldCol : ColumnMeta) (mig : TableDiff) :
    TableDiff :=
  let mig := pushUp mig ("ALTER TABLE " ++ quoteIdent table
    ++ " DROP COLUMN IF EXISTS " ++ quoteIdent oldCol.ColumnName)
  let down := "ALTER TABLE " ++ quoteIdent table ++ " ADD COLUMN IF NOT EXISTS "
    ++ quoteIdent oldCol.ColumnName ++ " " ++ oldCol.Attrs.PgType
  let down := match oldCol.Attrs.Default with
    | some v => down ++ " DEFAULT " ++ v
    | none => down
  let down := if oldCol.Attrs.NotNull || oldCol.Attrs.IsPK then down ++ " NOT NULL"
    else down
  let down := if oldCol.Attrs.IsPK then down ++ "; ALTER TABLE "
      ++ quoteIdent table ++ " ADD CONSTRAINT " ++ quoteIdent (pkConstraintName table)
      ++ " PRIMARY KEY (" ++ quoteIdent oldCol.ColumnName ++ ")"
    else down
  let down := if oldCol.Attrs.Unique then
      let constrName := getConstraintName oldCol (uniqueConstraintName table oldCol.ColumnName)
      down ++ "; " ++ addConstraintIfNotExists ("ALTER TABLE " ++ quoteIdent table
        ++ " ADD CONSTRAINT " ++ quoteIdent constrName ++ " UNIQUE ("
        ++ quoteIdent oldCol.ColumnName ++ ")") constrName
    else down
  let down := match oldCol.Attrs.ForeignKey with
    | some fk =>
      let constrName := getConstraintName oldCol (fkConstraintName table oldCol.ColumnName)
      down ++ "; " ++ addConstraintIfNotExists
        (addFKStatement table constrName oldCol.ColumnName fk) constrName
    | none => down
  pushDownFront mig down

/-- Go `DiffGenerator.handlePKChanges`. -/
def handlePKChanges (table : String) (oldPKs newPKs : List String)
    (mig : TableDiff) : TableDiff :=
  let mig :=
    if oldPKs.length > 0 then
      pushDownFront (pushUp mig ("ALTER TABLE " ++ quoteIdent table
          ++ " DROP CONSTRAINT IF EXISTS " ++ quoteIdent (pkConstraintName table)))
        ("ALTER TABLE " ++ quoteIdent table ++ " ADD CONSTRAINT "
          ++ quoteIdent (pkConstraintName table) ++ " PRIMARY KEY ("
          ++ String.intercalate ", " oldPKs ++ ")")
    else mig
  if newPKs.length > 0 then
    pushDownFront (pushUp mig ("ALTER TABLE " ++ quoteIdent table
        ++ " ADD CONSTRAINT " ++ quoteIdent (pkConstraintName table)
        ++ " PRIMARY KEY (" ++ String.intercalate ", " newPKs ++ ")"))
      ("ALTER TABLE " ++ quoteIdent table ++ " DROP CONSTRAINT IF EXISTS "
        ++ quoteIdent (pkConstraintName table))
  else mig

/-- Go `DiffGenerator.generateCreateTableDiff`.  The single Go loop
appends to the three accumulators `columns`, `pkCols` and `constraints`;
the three traversals below build the same three lists. -/
def generateCreateTableDiff (nw : TableSchema) : TableDiff :=
  let columns := nw.Columns.map buildColumnDefinition
  let pkCols := (nw.Columns.filter (fun c => c.Attrs.IsPK)).map
    (fun c => quoteIdent c.ColumnName)
  let constraints := (nw.Columns.filter (fun c => c.Attrs.Unique)).map
    (fun c => "CONSTRAINT " ++ quoteIdent (uniqueConstraintName nw.TableName c.ColumnName)
      ++ " UNIQUE (" ++ quoteIdent c.ColumnName ++ ")")
  let columns :=
    if pkCols.length > 0 then
      columns ++ ["CONSTRAINT " ++ quoteIdent (pkConstraintName nw.TableName)
        ++ " PRIMARY KEY (" ++ String.intercalate ", " pkCols ++ ")"]
    else columns
  let columns := columns ++ constraints
  let createStmt := "CREATE TABLE IF NOT EXISTS " ++ quoteIdent nw.TableName
    ++ " (\n  " ++ String.intercalate ",\n  " columns ++ "\n)"
  let mig : TableDiff := ⟨[createStmt],
    ["DROP TABLE IF EXISTS " ++ quoteIdent nw.TableName ++ " CASCADE"]⟩
  nw.Columns.foldl
    (fun mig c => if c.Attrs.ForeignKey.isSome then addForeignKey nw.TableName c mig
      else mig) mig

/-- Association-list insert with overwrite: one `m[k] = v` store on a Go
map, keeping first-insertion order for iteration. -/
def mapInsert (m : List (String × ColumnMeta)) (k : String) (v : ColumnMeta) :
    List (String × ColumnMeta) :=
  match m with
  | [] => [(k, v)]
  | (k1, v1) :: rest => if k1 = k then (k, v) :: rest else (k1, v1) :: mapInsert rest k v

/-- Go `makeColumnMap`: a map keyed by column name. -/
def makeColumnMap (columns : List ColumnMeta) : List (String × ColumnMeta) :=
  columns.foldl (fun m col => mapInsert m col.ColumnName col) []

/-- Go map lookup on an association list. -/
def lookupG {α : Type} : List (String × α) → String → Option α
  | [], _ => none
  | (k, v) :: rest, key => if k = key then some v else lookupG rest key

/-- Go `collectPKs` (builder.go). -/
def collectPKs (s : TableSchema) : List String :=
  (s.Columns.filter (fun c => c.Attrs.IsPK)).map (fun c => c.ColumnName)

/-- Go `stringSlicesEqual` (builder.go): equal length and every element of
`b` occurs in `a` (order-insensitive). -/
def stringSlicesEqual (a b : List String) : Bool :=
  a.length == b.length && b.all (fun y => a.contains y)

/-- Go `DiffGenerator.DiffSchemas`.  The two Go `range` loops over the
column maps run here in first-insertion order; the Go iteration order is
unspecified and the properties proved below do not depend on it. -/
def DiffSchemas (old nw : TableSchema) : TableDiff :=
  let oldCols := makeColumnMap old.Columns
  let newCols := makeColumnMap nw.Columns
  if oldCols.length = 0 ∧ newCols.length > 0 then generateCreateTableDiff nw
  else
    let mig : TableDiff := ⟨[], []⟩
    let mig := newCols.foldl
      (fun mig e =>
        match lookupG oldCols e.1 with
        | none => handleAddedColumn nw.TableName e.2 mig
        | some oldCol => handleChangedColumn nw.TableName oldCol e.2 mig) mig
    let mig := oldCols.foldl
      (fun mig e =>
        match lookupG newCols e.1 with
        | none => handleRemovedColumn old.TableName e.2 mig
        | some _ => mig) mig
    let oldPKs := collectPKs old
    let newPKs := collectPKs nw
    if stringSlicesEqual oldPKs newPKs then mig
    else handlePKChanges nw.TableName oldPKs newPKs mig


/-! ## Ledger and runner (internal/core, internal/database)

The migrations directory, file reads, SQL execution and the ledger table
become explicit values: `dirFiles` lists the non-directory entry names,
`content` is the result of reading a file (`none` is a read failure),
`execOk` tells whether executing a given SQL text succeeds, and
`recordOk`/`removeOk` tell whether the ledger INSERT/DELETE succeeds.
`applied` is the ledger read by `GetAppliedMigrations`, ordered by
`applied_at` ascending; `RecordMigration` appends (later `now()` values
sort after earlier ones) and `RemoveMigration` deletes the row of a name
(the primary key admits at most one). -/

/-- Go string comparison, not-greater direction: byte-wise lexicographic
order, which for UTF-8 equals code-point order (all names here are
ASCII). -/
def charListLe : List Char → List Char → Bool
  | [], _ => true
  | _ :: _, [] => false
  | a :: as, b :: bs =>
    if a.toNat < b.toNat then true
    else if b.toNat < a.toNat then false
    else charListLe as bs

/-- Go `a <= b` on strings. -/
def strLe (a b : String) : Bool := charListLe a.data b.data

/-- Insert into a sorted list (ascending by `strLe`). -/
def insertSorted (x : String) : List String → List String
  | [] => [x]
  | y :: ys => if strLe x y then x :: y :: ys else y :: insertSorted x ys

/-- Go `sort.Strings`: the ascending permutation of the input.  Insertion
sort produces the same sorted result. -/
def sortStrings (l : List String) : List String := l.foldr insertSorted []

/-- Environment of `Migrator.Run` and `Migrator.Status`. -/
structure RunEnv where
  dirFiles : List String
  content : String → Option String
  execOk : String → Bool
  recordOk : String → Bool

/-- Go `Migrator.getMigrationFiles`: non-directory entries with suffix
`.sql`, sorted. -/
def getMigrationFiles (env : RunEnv) : List String :=
  sortStrings (env.dirFiles.filter (fun f => strHasSuffix f ".sql"))

/-- Go `filterUpFiles`. -/
def filterUpFiles (files : List String) : List String :=
  sortStrings (files.filter (fun f => strHasSuffix f ".up.sql"))

/-- Go `extractMigrationBases`. -/
def extractMigrationBases (upFiles : List String) : List String :=
  upFiles.map (fun f => strTrimSuffix f ".up.sql")

/-- Failure cases of `Migrator.Run`, tagged with the migration base. -/
inductive RunErr where
  | readErr (base : String)
  | execErr (base : String)
  | recordErr (base : String)
deriving DecidableEq

/-- Result of `Migrator.Run`: the names newly applied (the returned
slice), the ledger rows after the call, and the error if any. -/
structure RunOutcome where
  appliedNow : List String
  ledger : List String
  err : Option RunErr
deriving DecidableEq

/-- The per-base loop of Go `Migrator.Run`: skip bases already in the
ledger, skip whitespace-only files without recording, otherwise execute
the SQL and then insert the ledger row; stop at the first failure. -/
def runLoop (env : RunEnv) (appliedSet : List String) :
    List String → List String → List String → RunOutcome
  | [], appliedNow, ledger => ⟨appliedNow, ledger, none⟩
  | base :: rest, appliedNow, ledger =>
    if appliedSet.contains base then runLoop env appliedSet rest appliedNow ledger
    else
      match env.content (base ++ ".up.sql") with
      | none => ⟨appliedNow, ledger, some (.readErr base)⟩
      | some c =>
        if strTrimSpace c = "" then runLoop env appliedSet rest appliedNow ledger
        else if env.execOk c then
          if env.recordOk base then
            runLoop env appliedSet rest (appliedNow ++ [base]) (ledger ++ [base])
          else ⟨appliedNow, ledger, some (.recordErr base)⟩
        else ⟨appliedNow, ledger, some (.execErr base)⟩

/-- The base names `Migrator.Run` iterates over, in sorted file order. -/
def runBases (env : RunEnv) : List String :=
  extractMigrationBases (filterUpFiles (getMigrationFiles env))

/-- Go `Migrator.Run`: the applied set is fixed up front from the ledger
and not updated during the loop, exactly as in the source. -/
def Run (env : RunEnv) (applied : List String) : RunOutcome :=
  runLoop env applied (runBases env) [] applied

/-- Go `Migrator.Status`: note the source compares the full *file names*
(`file`) against the ledger names, not the up-file base names. -/
def Status (env : RunEnv) (applied : List String) : List String × List String :=
  let files := getMigrationFiles env
  let pending := files.filter (fun file => !(applied.contains file))
  (applied, pending)

/-- Pending migrations as the C3 claim (and the spec) states them: up-file
base names without a ledger row, in file order.  This definition follows
the claim wording, for comparison with the embedded `Status`. -/
def statusPendingClaim (env : RunEnv) (applied : List String) : List String :=
  (runBases env).filter (fun base => !(applied.contains base))

/-- Environment of `Migrator.Rollback`: `statExists` is the `os.Stat`
existence check on the down file, `content` the read result, `execOk` the
SQL outcome and `removeOk` the ledger DELETE outcome. -/
structure RollbackEnv where
  statExists : String → Bool
  content : String → Option String
  execOk : String → Bool
  removeOk : String → Bool

/-- Failure cases of `Migrator.Rollback`. -/
inductive RollbackErr where
  | missingDown (base : String)
  | readErr (base : String)
  | emptyDown (base : String)
  | execErr (base : String)
  | removeErr (base : String)
deriving DecidableEq

/-- Result of `Migrator.Rollback`. -/
structure RollbackOutcome where
  rolledBack : List String
  ledger : List String
  err : Option RollbackErr
deriving DecidableEq

/-- The loop of Go `Migrator.Rollback`, which walks `toRollback` from the
last index down to the first; the argument list here is already reversed. -/
def rollbackLoop (env : RollbackEnv) :
    List String → List String → List String → RollbackOutcome
  | [], rolledBack, ledger => ⟨rolledBack, ledger, none⟩
  | base :: rest, rolledBack, ledger =>
    let downFile := base ++ ".down.sql"
    if env.statExists downFile = false then
      ⟨rolledBack, ledger, some (.missingDown base)⟩
    else
      match env.content downFile with
      | none => ⟨rolledBack, ledger, some (.readErr base)⟩
      | some c =>
        if strTrimSpace c = "" then ⟨rolledBack, ledger, some (.emptyDown base)⟩
        else if env.execOk c then
          if env.removeOk base then
            rollbackLoop env rest (rolledBack ++ [base]) (ledger.erase base)
          else ⟨rolledBack, ledger, some (.removeErr base)⟩
        else ⟨rolledBack, ledger, some (.execErr base)⟩

/-- Go `Migrator.Rollback`.  `n : Nat` models the CLI-validated count (the
CLI rejects values below 1; the Go code behaves identically for 0, and a
negative count, which would make the Go slice expression panic, is not
representable). -/
def Rollback (env : RollbackEnv) (applied : List String) (n : Nat) :
    RollbackOutcome :=
  if applied.length = 0 then ⟨[], applied, none⟩
  else
    let n := if n > applied.length then applied.length else n
    let toRollback := applied.drop (applied.length - n)
    rollbackLoop env toRollback.reverse [] applied


/-! ## Dependency sorter (internal/core, topologicalSort)

The Go dependency graph is a map from a table to the list of tables that
depend on it (its dependents); it becomes an association list with unique
keys.  Go iterates maps in unspecified order in two places: summing the
in-degrees (a sum, order-irrelevant) and seeding the ready queue; the
embedding seeds the queue in `allTables` order and the proved properties
do not depend on that choice. -/

/-- Keys of an association list. -/
def keysOf {α : Type} (g : List (String × α)) : List String := g.map Prod.fst

/-- Go `graph[current]`: a missing key reads as the empty list. -/
def graphGet (g : List (String × List String)) (k : String) : List String :=
  match lookupG g k with
  | some ds => ds
  | none => []

/-- Go `graph[refTable] = append(graph[refTable], table)`: one append
store on the map, creating the key at the end when missing. -/
def graphAppend (g : List (String × List String)) (k v : String) :
    List (String × List String) :=
  match g with
  | [] => [(k, [v])]
  | (k1, ds) :: rest =>
    if k1 = k then (k1, ds ++ [v]) :: rest else (k1, ds) :: graphAppend rest k v

/-- Go `getTableNames`: the sorted key set of the schema map. -/
def getTableNames (schemas : List (String × TableSchema)) : List String :=
  sortStrings (keysOf schemas)

/-- The dependency-graph construction inside Go
`Migrator.buildSchemaDependencies`: for each declared table in sorted
order, every foreign key whose referenced table is also declared adds the
edge refTable → table.  (The registry closures and the live-schema
fetches of the Go method are I/O and outside this model.) -/
def buildDependencyGraph (schemas : List (String × TableSchema)) :
    List (String × List String) :=
  (getTableNames schemas).foldl
    (fun g table =>
      match lookupG schemas table with
      | none => g
      | some sch =>
        sch.Columns.foldl
          (fun g c =>
            match c.Attrs.ForeignKey with
            | some fk =>
              if (lookupG schemas fk.Table).isSome then graphAppend g fk.Table table
              else g
            | none => g)
          g)
    []

/-- Contribution of one graph entry to the in-degree of `t`; the Go loop
skips self references (`from != to`). -/
def inDegEntry (t : String) (e : String × List String) : Nat :=
  if e.1 = t then 0 else e.2.count t

/-- The initial Go `inDegree[t]` value: non-self edges into `t`, counted
with multiplicity. -/
def inDeg (g : List (String × List String)) (t : String) : Nat :=
  (g.map (inDegEntry t)).sum

/-- In-degree of `t` restricted to edges from tables not yet placed in
`result`; the mutable Go counter always equals this value. -/
def remDeg (g : List (String × List String)) (processed : List String)
    (t : String) : Nat :=
  (g.map (fun e => if e.1 ∈ processed then 0 else inDegEntry t e)).sum

/-- Pointwise update of the in-degree map. -/
def updDeg (deg : String → Int) (x : String) (v : Int) : String → Int :=
  fun t => if t = x then v else deg t

/-- Body of the Go neighbor loop: skip self references, decrement the
counter, enqueue a neighbor whose counter reaches zero. -/
def stepNeighbor (current : String) (st : (String → Int) × List String)
    (neighbor : String) : (String → Int) × List String :=
  if current ≠ neighbor then
    let d := st.1 neighbor - 1
    (updDeg st.1 neighbor d, if d = 0 then st.2 ++ [neighbor] else st.2)
  else st

/-- The Kahn worklist loop of Go `topologicalSort`, fuelled; `none` marks
fuel exhaustion, which the chosen fuel makes unreachable (every iteration
pops one queue entry and at most nodes-plus-edges entries are ever
enqueued). -/
def kahnLoop (g : List (String × List String)) :
    Nat → List String → List String → (String → Int) → Option (List String)
  | _, [], result, _ => some result
  | 0, _ :: _, _, _ => none
  | fuel + 1, current :: queue, result, deg =>
    let st := (graphGet g current).foldl (stepNeighbor current) (deg, queue)
    kahnLoop g fuel st.2 (result ++ [current]) st.1

/-- Total number of stored edges. -/
def totalEdges (g : List (String × List String)) : Nat :=
  (g.map (fun e => e.2.length)).sum

/-- Fuel that the loop can never exhaust. -/
def kahnFuel (g : List (String × List String)) (allTables : List String) : Nat :=
  allTables.length + totalEdges g + 1

/-- The cycle diagnostic of Go `topologicalSort` (the per-table
self-reference/external-dependency figures of the Go message are
presentation only and abbreviated here). -/
def cycleInfo (remaining : List String) : String :=
  "\nDependency resolution failed. Problematic tables:\n\nDetailed analysis:\n"
    ++ remaining.foldl (fun acc table => acc ++ "  - " ++ table ++ "\n") ""

/-- Go `topologicalSort`: Kahn with self references ignored, then the
recovery pass that appends tables whose only dependent is themselves, and
a cycle diagnostic when tables remain unplaced. -/
def topologicalSort (g : List (String × List String)) (allTables : List String) :
    Except String (List String) :=
  let deg : String → Int := fun t => (inDeg g t : Int)
  let queue := allTables.filter (fun t => inDeg g t = 0)
  match kahnLoop g (kahnFuel g allTables) queue [] deg with
  | none => Except.error "internal: fuel exhausted"
  | some result =>
    if result.length ≠ allTables.length then
      let remaining := allTables.filter (fun t => !(result.contains t))
      let result := remaining.foldl
        (fun res table =>
          let deps := graphGet g table
          if deps.all (fun d => d = table) ∧ deps ≠ [] then res ++ [table]
          else res)
        result
      if result.length ≠ allTables.length then
        Except.error (cycleInfo remaining)
      else Except.ok result
    else Except.ok result

/-- Well-formedness of a dependency graph over the table universe `ts`:
unique map keys, edge endpoints inside `ts`, and `ts` duplicate-free.
(A verification predicate, not translated code.) -/
structure GraphWF (g : List (String × List String)) (ts : List String) : Prop where
  keysNodup : (keysOf g).Nodup
  closed : ∀ e ∈ g, e.1 ∈ ts ∧ ∀ d ∈ e.2, d ∈ ts
  tsNodup : ts.Nodup

/-- Invariant of the Kahn worklist loop: placed and queued tables are
distinct and declared, the mutable counter tracks the remaining degree,
every placed or queued table has remaining degree zero, and placed tables
respect the non-self edges.  (A verification predicate, not translated
code.) -/
structure KahnInv (g : List (String × List String)) (ts : List String)
    (queue result : List String) (deg : String → Int) : Prop where
  nodup : (result ++ queue).Nodup
  sub : ∀ v ∈ result ++ queue, v ∈ ts
  degEq : ∀ v, deg v = (remDeg g result v : Int)
  zeroed : ∀ v ∈ result ++ queue, remDeg g result v = 0
  ordered : ∀ u v, v ∈ graphGet g u → u ≠ v → v ∈ result →
      u ∈ result ∧ result.indexOf u < result.indexOf v

/-- Two small declared schemas used to exercise the sorter: `books`
carries a foreign key into `authors`. -/
def authorsSchema : TableSchema :=
  { TableName := "authors",
    Columns := [
      { FieldName := "ID", ColumnName := "id", Idx := 0,
        Attrs := { PgType := "integer", NotNull := true, Unique := false,
                   IsPK := true, Default := none, ForeignKey := none,
                   ConstraintName := none } }] }

/-- Companion schema referencing `authors` (see `authorsSchema`). -/
def booksSchema : TableSchema :=
  { TableName := "books",
    Columns := [
      { FieldName := "ID", ColumnName := "id", Idx := 0,
        Attrs := { PgType := "integer", NotNull := true, Unique := false,
                   IsPK := true, Default := none, ForeignKey := none,
                   ConstraintName := none } },
      { FieldName := "AuthorID", ColumnName := "author_id", Idx := 1,
        Attrs := { PgType := "integer", NotNull := false, Unique := false,
                   IsPK := false, Default := none,
                   ForeignKey := some { Table := "authors", Column := "id",
                                        OnDelete := "CASCADE", OnUpdate := "" },
                   ConstraintName := none } }] }

/-- The demo schema map handed to the sorter. -/
def sorterDemoSchemas : List (String × TableSchema) :=
  [("books", booksSchema), ("authors", authorsSchema)]

-- ===================== PROOFS =====================

/-! ## Character and string lemmas -/

theorem toNat_ofNatAux (n : Nat) (h : n.isValidChar) :
    (Char.ofNatAux n h).toNat = n := by
  simp [Char.ofNatAux, Char.toNat, UInt32.toNat, UInt32.ofNatCore]

theorem toNat_ofNat_valid (n : Nat) (h : n.isValidChar) :
    (Char.ofNat n).toNat = n := by
  rw [Char.ofNat, dif_pos h]; exact toNat_ofNatAux n h

theorem toLower_toLower (c : Char) : c.toLower.toLower = c.toLower := by
  unfold Char.toLower
  by_cases h : c.toNat ≥ 65 ∧ c.toNat ≤ 90
  · rw [if_pos h]
    have hv : (c.toNat + 32).isValidChar := by
      unfold Nat.isValidChar; omega
    rw [toNat_ofNat_valid _ hv, if_neg (by omega)]
  · rw [if_neg h, if_neg h]

theorem toUpper_toUpper (c : Char) : c.toUpper.toUpper = c.toUpper := by
  unfold Char.toUpper
  by_cases h : c.toNat ≥ 97 ∧ c.toNat ≤ 122
  · rw [if_pos h]
    have hv : (c.toNat - 32).isValidChar := by
      unfold Nat.isValidChar; omega
    rw [toNat_ofNat_valid _ hv, if_neg (by omega)]
  · rw [if_neg h, if_neg h]

theorem isSpaceGo_toLower (c : Char) : isSpaceGo c.toLower = isSpaceGo c := by
  unfold isSpaceGo Char.toLower
  by_cases h : c.toNat ≥ 65 ∧ c.toNat ≤ 90
  · rw [if_pos h]
    rw [toNat_ofNat_valid _ (by unfold Nat.isValidChar; omega)]
    rw [decide_eq_decide]
    omega
  · rw [if_neg h]

theorem isSpaceGo_toUpper (c : Char) : isSpaceGo c.toUpper = isSpaceGo c := by
  unfold isSpaceGo Char.toUpper
  by_cases h : c.toNat ≥ 97 ∧ c.toNat ≤ 122
  · rw [if_pos h]
    rw [toNat_ofNat_valid _ (by unfold Nat.isValidChar; omega)]
    rw [decide_eq_decide]
    omega
  · rw [if_neg h]

theorem strToLower_strToLower (s : String) :
    strToLower (strToLower s) = strToLower s := by
  simp [strToLower, List.map_map, Function.comp_def, toLower_toLower]

theorem strToUpper_strToUpper (s : String) :
    strToUpper (strToUpper s) = strToUpper s := by
  simp [strToUpper, List.map_map, Function.comp_def, toUpper_toUpper]

theorem dropWhile_head_false {α : Type} (p : α → Bool) (l : List α)
    (c : α) (cs : List α) (h : l.dropWhile p = c :: cs) : p c = false := by
  induction l with
  | nil => simp [List.dropWhile] at h
  | cons a as ih =>
    rw [List.dropWhile_cons] at h
    by_cases hp : p a = true
    · rw [if_pos hp] at h; exact ih h
    · rw [if_neg hp] at h
      cases h
      exact Bool.not_eq_true _ ▸ (by simpa using hp)

theorem trimLeftList_idem (l : List Char) :
    trimLeftList (trimLeftList l) = trimLeftList l := by
  simp [trimLeftList, List.dropWhile_idempotent]

theorem trimRightList_idem (l : List Char) :
    trimRightList (trimRightList l) = trimRightList l := by
  simp [trimRightList, List.reverse_reverse, List.dropWhile_idempotent]

theorem trimLeft_trimRight_of_trimLeft (l : List Char)
    (h : trimLeftList l = l) : trimLeftList (trimRightList l) = trimRightList l := by
  unfold trimLeftList at *
  unfold trimRightList
  cases hl : l with
  | nil => simp [hl]
  | cons c cs =>
    have hdw : List.dropWhile isSpaceGo (c :: cs) = c :: cs := by
      rw [← hl]; exact h
    have hc : isSpaceGo c = false :=
      dropWhile_head_false isSpaceGo (c :: cs) c cs hdw
    have hrev : (c :: cs).reverse = cs.reverse ++ [c] := by simp
    rw [hrev, List.dropWhile_append]
    by_cases he : (cs.reverse.dropWhile isSpaceGo).isEmpty = true
    · rw [if_pos he]
      simp [List.dropWhile_cons, hc]
    · rw [if_neg he]
      rw [List.reverse_append]
      simp only [List.reverse_cons, List.reverse_nil, List.nil_append,
        List.singleton_append, List.dropWhile_cons, hc]
      simp

theorem strTrimSpace_idem (s : String) :
    strTrimSpace (strTrimSpace s) = strTrimSpace s := by
  unfold strTrimSpace
  congr 1
  have h1 : trimLeftList (trimRightList (trimLeftList s.data)) =
      trimRightList (trimLeftList s.data) :=
    trimLeft_trimRight_of_trimLeft _ (trimLeftList_idem s.data)
  rw [h1, trimRightList_idem]

theorem isSpaceGo_comp_toLower : isSpaceGo ∘ Char.toLower = isSpaceGo :=
  funext fun c => isSpaceGo_toLower c

theorem isSpaceGo_comp_toUpper : isSpaceGo ∘ Char.toUpper = isSpaceGo :=
  funext fun c => isSpaceGo_toUpper c

theorem trimLeftList_map_toLower (l : List Char) :
    trimLeftList (l.map Char.toLower) = (trimLeftList l).map Char.toLower := by
  unfold trimLeftList
  rw [List.dropWhile_map, isSpaceGo_comp_toLower]

theorem trimRightList_map_toLower (l : List Char) :
    trimRightList (l.map Char.toLower) = (trimRightList l).map Char.toLower := by
  unfold trimRightList
  rw [← List.map_reverse, List.dropWhile_map, isSpaceGo_comp_toLower,
    List.map_reverse]

theorem trimLeftList_map_toUpper (l : List Char) :
    trimLeftList (l.map Char.toUpper) = (trimLeftList l).map Char.toUpper := by
  unfold trimLeftList
  rw [List.dropWhile_map, isSpaceGo_comp_toUpper]

theorem trimRightList_map_toUpper (l : List Char) :
    trimRightList (l.map Char.toUpper) = (trimRightList l).map Char.toUpper := by
  unfold trimRightList
  rw [← List.map_reverse, List.dropWhile_map, isSpaceGo_comp_toUpper,
    List.map_reverse]

theorem strTrimSpace_strToLower (s : String) :
    strTrimSpace (strToLower s) = strToLower (strTrimSpace s) := by
  unfold strTrimSpace strToLower
  simp only
  congr 1
  rw [trimLeftList_map_toLower, trimRightList_map_toLower]

theorem strTrimSpace_strToUpper (s : String) :
    strTrimSpace (strToUpper s) = strToUpper (strTrimSpace s) := by
  unfold strTrimSpace strToUpper
  simp only
  congr 1
  rw [trimLeftList_map_toUpper, trimRightList_map_toUpper]

/-! ## Idempotence of the field normalizers (no-default case) -/

theorem normalizePgType_idem (t : String) :
    normalizePgType (normalizePgType t) = normalizePgType t := by
  unfold normalizePgType
  set t1 := strToLower (strTrimSpace t) with ht1
  by_cases h : t1 = "character varying" ∨ t1 = "varchar" ∨ t1 = "varchar()"
      ∨ t1 = "varchar(255)"
  · rw [if_pos h]
    decide
  · rw [if_neg h]
    have htrim : strTrimSpace t1 = t1 := by
      rw [ht1, strTrimSpace_strToLower, strTrimSpace_idem]
    have hlow : strToLower t1 = t1 := by
      rw [ht1, strToLower_strToLower]
    rw [htrim, hlow, if_neg h]

theorem normalizeAction_idem (a : String) :
    normalizeAction (normalizeAction a) = normalizeAction a := by
  unfold normalizeAction
  set a1 := strToUpper (strTrimSpace a) with ha1
  by_cases h : a1 = ""
  · rw [if_pos h]
    decide
  · rw [if_neg h]
    have htrim : strTrimSpace a1 = a1 := by
      rw [ha1, strTrimSpace_strToUpper, strTrimSpace_idem]
    have hup : strToUpper a1 = a1 := by
      rw [ha1, strToUpper_strToUpper]
    rw [htrim, hup, if_neg h]

theorem normalizeColumn_idem_of_no_default (c : ColumnMeta)
    (h : c.Attrs.Default = none) :
    normalizeColumn (normalizeColumn c) = normalizeColumn c := by
  unfold normalizeColumn
  simp only [h]
  cases hfk : c.Attrs.ForeignKey with
  | none =>
    simp [normalizeDefault, normalizePgType_idem]
  | some fk =>
    simp [normalizeDefault, normalizePgType_idem, normalizeAction_idem,
      strToLower_strToLower]

/-- C1 (amended): `NormalizeSchema` is idempotent on every schema none of
whose columns carries a default expression; a second pass changes no
pg_type, no foreign-key field and no column identity. -/
theorem normalizeSchema_idempotent_of_no_defaults (s : TableSchema)
    (h : ∀ c ∈ s.Columns, c.Attrs.Default = none) :
    NormalizeSchema (NormalizeSchema s) = NormalizeSchema s := by
  unfold NormalizeSchema
  simp only [List.map_map, TableSchema.mk.injEq, true_and]
  apply List.map_congr_left
  intro c hc
  exact normalizeColumn_idem_of_no_default c (h c hc)

/-- Witness for the amended C1 theorem at a concrete schema (a column with
an upper-case pg_type and a foreign key, no default). -/
theorem normalizeSchema_idempotent_of_no_defaults_witness :
    NormalizeSchema (NormalizeSchema
      ⟨"Users", [⟨"Id", "id", 0,
        ⟨"TEXT", true, false, true, none,
          some ⟨"Groups", "Id", "cascade", "", ⟩, none⟩⟩]⟩) =
    NormalizeSchema
      ⟨"Users", [⟨"Id", "id", 0,
        ⟨"TEXT", true, false, true, none,
          some ⟨"Groups", "Id", "cascade", "", ⟩, none⟩⟩]⟩ :=
  normalizeSchema_idempotent_of_no_defaults _ (by decide)

/-- C1 (counterexample): normalization is not idempotent as claimed.  The
source strips the suffixes `::text` and `::varchar` from a default before
lower-casing it, so the default `0::TEXT` becomes `0::text` after one pass
and `0` after a second pass. -/
theorem normalizeSchema_not_idempotent_cex :
    NormalizeSchema (NormalizeSchema
      ⟨"t", [⟨"F", "c", 0,
        ⟨"text", false, false, false, some "0::TEXT", none, none⟩⟩]⟩) ≠
    NormalizeSchema
      ⟨"t", [⟨"F", "c", 0,
        ⟨"text", false, false, false, some "0::TEXT", none, none⟩⟩]⟩ := by
  decide

/-- C5 (counterexample): `NormalizeSchema` does not leave its argument
unchanged.  With one column of pg_type `TEXT` the caller observes the
lower-cased pg_type in the argument after the call. -/
theorem normalizeSchema_mutates_input_cex :
    NormalizeSchemaArgAfter
      ⟨"t", [⟨"F", "c", 0,
        ⟨"TEXT", false, false, false, none, none, none⟩⟩]⟩ ≠
      ⟨"t", [⟨"F", "c", 0,
        ⟨"TEXT", false, false, false, none, none, none⟩⟩]⟩ := by
  decide

/-- C5 (amended): after the call the argument holds exactly the normalized
columns (the return value), with table name, column order, column names,
field names and indices untouched; consequently the argument is unchanged
precisely when the schema is already a fixpoint of normalization. -/
theorem normalizeSchema_arg_after_frame (s : TableSchema) :
    NormalizeSchemaArgAfter s = NormalizeSchema s ∧
    (NormalizeSchemaArgAfter s).TableName = s.TableName ∧
    (NormalizeSchemaArgAfter s).Columns.map ColumnMeta.ColumnName =
      s.Columns.map ColumnMeta.ColumnName ∧
    (NormalizeSchemaArgAfter s).Columns.map ColumnMeta.FieldName =
      s.Columns.map ColumnMeta.FieldName ∧
    (NormalizeSchemaArgAfter s).Columns.map ColumnMeta.Idx =
      s.Columns.map ColumnMeta.Idx ∧
    (NormalizeSchemaArgAfter s = s ↔ NormalizeSchema s = s) := by
  refine ⟨rfl, rfl, ?_, ?_, ?_, Iff.rfl⟩
  · show (s.Columns.map normalizeColumn).map ColumnMeta.ColumnName = _
    rw [List.map_map]; rfl
  · show (s.Columns.map normalizeColumn).map ColumnMeta.FieldName = _
    rw [List.map_map]; rfl
  · show (s.Columns.map normalizeColumn).map ColumnMeta.Idx = _
    rw [List.map_map]; rfl


/-! ## Builder theorems (C4) -/

theorem applyTagOption_pgtype (attrs : ColumnAttributes) (p : String)
    (h : attrs.PgType = "") (hp : strStartsWith p "type=" = false) :
    (applyTagOption attrs p).PgType = "" := by
  unfold applyTagOption
  split_ifs with h1 h2 h3 h4 h5 h6 h7 h8
  · exact h
  · exact h
  · exact h
  · rw [h4] at hp; exact absurd hp (by simp)
  · exact h
  · split
    · exact h
    · exact h
  · cases attrs.ForeignKey <;> exact h
  · cases attrs.ForeignKey <;> exact h
  · exact h

theorem foldl_applyTagOption_pgtype (rest : List String)
    (attrs : ColumnAttributes) (h : attrs.PgType = "")
    (hno : ∀ p ∈ rest, strStartsWith p "type=" = false) :
    (rest.foldl applyTagOption attrs).PgType = "" := by
  induction rest generalizing attrs with
  | nil => exact h
  | cons p ps ih =>
    rw [List.foldl_cons]
    exact ih _ (applyTagOption_pgtype attrs p h (hno p (by simp)))
      (fun q hq => hno q (by simp [hq]))

/-- C4 (amended): for a field whose db tag names a column and carries no
`type=` option, `parseTag` sets the pg_type of the resulting column to
`inferPgType fieldType` computed from the host-language field type, not
to the literal `text`. -/
theorem parseTag_pg_type_infers (tag : String) (ft : GoType)
    (name : String) (rest : List String)
    (hsplit : strSplitChar ',' tag = name :: rest)
    (hname : ¬(name = "" ∨ name = "-"))
    (hnotype : ∀ p ∈ rest, strStartsWith p "type=" = false) :
    (parseTag tag ft).2.PgType = inferPgType ft := by
  unfold parseTag
  rw [hsplit]
  simp only [if_neg hname]
  rw [if_pos (foldl_applyTagOption_pgtype rest emptyAttrs rfl hnotype)]

/-- Witness for the amended C4 theorem: a tag `n,notnull` on a Go `int`
field yields pg_type `integer`. -/
theorem parseTag_pg_type_infers_witness :
    strSplitChar ',' "n,notnull" = "n" :: ["notnull"] ∧
    ¬(("n" : String) = "" ∨ ("n" : String) = "-") ∧
    (∀ p ∈ (["notnull"] : List String), strStartsWith p "type=" = false) ∧
    (parseTag "n,notnull" (GoType.base "int" GoKind.int)).2.PgType =
      inferPgType (GoType.base "int" GoKind.int) :=
  ⟨by decide, by decide, by decide,
    parseTag_pg_type_infers "n,notnull" (GoType.base "int" GoKind.int)
      "n" ["notnull"] (by decide) (by decide) (by decide)⟩

/-- C4 (counterexample): the claim says the pg_type is `text` regardless
of the host-language type; on a Go `int` field with tag `n,notnull` the
cited builder produces `integer`. -/
theorem parseTag_not_text_cex :
    (parseTag "n,notnull" (GoType.base "int" GoKind.int)).2.PgType = "integer"
    ∧ (parseTag "n,notnull" (GoType.base "int" GoKind.int)).2.PgType ≠ "text" := by
  decide

/-- The EntityInfo-based builder described by the spec sentence, by
contrast, does default the pg_type to the literal `text` when no `type=`
option is present. -/
theorem parseColumnTag_defaults_text (tag raw : String)
    (hraw : extractTag tag "db" = raw) (hne : ¬(raw = "" ∨ raw = "-"))
    (name : String) (rest : List String)
    (hsplit : strSplitChar ',' raw = name :: rest)
    (hnotype : ∀ p ∈ rest, strStartsWith p "type=" = false) :
    (parseColumnTag tag).PgType = "text" := by
  unfold parseColumnTag
  rw [hraw]
  simp only [if_neg hne]
  rw [hsplit]
  simp only
  rw [if_pos (foldl_applyTagOption_pgtype rest emptyAttrs rfl hnotype)]


/-! ## Diff generator theorems (C9, C10) -/

theorem lookupG_mapInsert_self {m : List (String × ColumnMeta)} (k : String)
    (v : ColumnMeta) : lookupG (mapInsert m k v) k = some v := by
  induction m with
  | nil => simp [mapInsert, lookupG]
  | cons e rest ih =>
    obtain ⟨k1, v1⟩ := e
    unfold mapInsert
    by_cases h : k1 = k
    · rw [if_pos h]; simp [lookupG]
    · rw [if_neg h]; simp only [lookupG, if_neg h]; exact ih

theorem lookupG_mapInsert_other {m : List (String × ColumnMeta)} (k k1 : String)
    (v : ColumnMeta) (h : k1 ≠ k) :
    lookupG (mapInsert m k v) k1 = lookupG m k1 := by
  induction m with
  | nil =>
    show (if k = k1 then some v else none) = none
    rw [if_neg fun hh => h hh.symm]
  | cons e rest ih =>
    obtain ⟨k2, v2⟩ := e
    unfold mapInsert
    by_cases h2 : k2 = k
    · rw [if_pos h2]
      simp only [lookupG]
      rw [if_neg (fun hh => h hh.symm), if_neg (fun hh => h (h2 ▸ hh.symm))]
    · rw [if_neg h2]
      simp only [lookupG]
      by_cases h3 : k2 = k1
      · rw [if_pos h3, if_pos h3]
      · rw [if_neg h3, if_neg h3]; exact ih

theorem mem_mapInsert {m : List (String × ColumnMeta)} {k : String}
    {v : ColumnMeta} {e : String × ColumnMeta}
    (hnd : (m.map Prod.fst).Nodup) (he : e ∈ mapInsert m k v) :
    e = (k, v) ∨ (e ∈ m ∧ e.1 ≠ k) := by
  induction m with
  | nil => simp [mapInsert] at he; simp [he]
  | cons p rest ih =>
    obtain ⟨k1, v1⟩ := p
    simp only [List.map_cons, List.nodup_cons] at hnd
    unfold mapInsert at he
    by_cases h : k1 = k
    · rw [if_pos h] at he
      rcases List.mem_cons.mp he with h1 | h1
      · exact Or.inl h1
      · right
        refine ⟨List.mem_cons.mpr (Or.inr h1), ?_⟩
        intro hk
        exact hnd.1 (h ▸ hk ▸ (List.mem_map.mpr ⟨e, h1, rfl⟩))
    · rw [if_neg h] at he
      rcases List.mem_cons.mp he with h1 | h1
      · right
        refine ⟨List.mem_cons.mpr (Or.inl h1), ?_⟩
        rw [h1]; exact h
      · rcases ih hnd.2 h1 with h2 | h2
        · exact Or.inl h2
        · exact Or.inr ⟨List.mem_cons.mpr (Or.inr h2.1), h2.2⟩

theorem keys_mapInsert_sub {m : List (String × ColumnMeta)} {k : String}
    {v : ColumnMeta} {x : String}
    (hx : x ∈ (mapInsert m k v).map Prod.fst) :
    x ∈ m.map Prod.fst ∨ x = k := by
  induction m with
  | nil => simp [mapInsert] at hx; simp [hx]
  | cons p rest ih =>
    obtain ⟨k1, v1⟩ := p
    unfold mapInsert at hx
    by_cases h : k1 = k
    · rw [if_pos h] at hx
      simp only [List.map_cons, List.mem_cons] at hx ⊢
      rcases hx with h1 | h1
      · exact Or.inr h1
      · exact Or.inl (Or.inr h1)
    · rw [if_neg h] at hx
      simp only [List.map_cons, List.mem_cons] at hx ⊢
      rcases hx with h1 | h1
      · exact Or.inl (Or.inl h1)
      · rcases ih h1 with h2 | h2
        · exact Or.inl (Or.inr h2)
        · exact Or.inr h2

theorem nodup_keys_mapInsert {m : List (String × ColumnMeta)} (k : String)
    (v : ColumnMeta) (hnd : (m.map Prod.fst).Nodup) :
    ((mapInsert m k v).map Prod.fst).Nodup := by
  induction m with
  | nil => simp [mapInsert]
  | cons p rest ih =>
    obtain ⟨k1, v1⟩ := p
    simp only [List.map_cons, List.nodup_cons] at hnd
    unfold mapInsert
    by_cases h : k1 = k
    · rw [if_pos h]
      simp only [List.map_cons, List.nodup_cons]
      exact ⟨h ▸ hnd.1, hnd.2⟩
    · rw [if_neg h]
      simp only [List.map_cons, List.nodup_cons]
      refine ⟨?_, ih hnd.2⟩
      intro hk1
      rcases keys_mapInsert_sub hk1 with h2 | h2
      · exact hnd.1 h2
      · exact h h2

/-- Invariant of `makeColumnMap`: keys are unique and every entry is
retrievable at its own key. -/
theorem makeColumnMap_sound (cols : List ColumnMeta) :
    ((makeColumnMap cols).map Prod.fst).Nodup ∧
    ∀ e ∈ makeColumnMap cols, lookupG (makeColumnMap cols) e.1 = some e.2 := by
  unfold makeColumnMap
  suffices h : ∀ (m : List (String × ColumnMeta)),
      (m.map Prod.fst).Nodup → (∀ e ∈ m, lookupG m e.1 = some e.2) →
      ((cols.foldl (fun m col => mapInsert m col.ColumnName col) m).map Prod.fst).Nodup ∧
      ∀ e ∈ cols.foldl (fun m col => mapInsert m col.ColumnName col) m,
        lookupG (cols.foldl (fun m col => mapInsert m col.ColumnName col) m) e.1 =
          some e.2 by
    exact h [] (by simp) (by simp)
  induction cols with
  | nil => intro m h1 h2; exact ⟨h1, h2⟩
  | cons c cs ih =>
    intro m h1 h2
    rw [List.foldl_cons]
    apply ih
    · exact nodup_keys_mapInsert _ _ h1
    · intro e he
      rcases mem_mapInsert h1 he with h3 | h3
      · rw [h3]
        exact lookupG_mapInsert_self _ _
      · rw [lookupG_mapInsert_other _ _ _ h3.2]
        exact h2 e h3.1

theorem foldl_id_of_step_id {α β : Type} (m : List α) (step : β → α → β)
    (a : β) (h : ∀ e ∈ m, ∀ acc, step acc e = acc) : m.foldl step a = a := by
  induction m generalizing a with
  | nil => rfl
  | cons e rest ih =>
    rw [List.foldl_cons, h e (by simp)]
    exact ih a (fun x hx acc => h x (by simp [hx]) acc)

theorem changedColType_self (table : String) (c : ColumnMeta)
    (mig : TableDiff) : changedColType table c c mig = mig := by
  unfold changedColType
  simp

theorem changedColNotNull_self (table : String) (c : ColumnMeta)
    (mig : TableDiff) : changedColNotNull table c c mig = mig := by
  unfold changedColNotNull
  simp

theorem changedColDefault_self (table : String) (c : ColumnMeta)
    (mig : TableDiff) : changedColDefault table c c mig = mig := by
  unfold changedColDefault
  simp

theorem changedColUnique_self (table : String) (c : ColumnMeta)
    (mig : TableDiff) : changedColUnique table c c mig = mig := by
  unfold changedColUnique
  simp

theorem handleChangedColumn_self (table : String) (c : ColumnMeta)
    (mig : TableDiff) : handleChangedColumn table c c mig = mig := by
  unfold handleChangedColumn
  rw [changedColType_self, changedColNotNull_self, changedColDefault_self,
    changedColUnique_self]
  unfold handleForeignKeyChanges
  cases c.Attrs.ForeignKey <;> simp

theorem stringSlicesEqual_self (l : List String) :
    stringSlicesEqual l l = true := by
  unfold stringSlicesEqual
  rw [Bool.and_eq_true]
  refine ⟨by simp, ?_⟩
  rw [List.all_eq_true]
  intro x hx
  exact List.elem_iff.mpr hx

/-- Diffing any schema against itself produces an empty diff. -/
theorem diffSchemas_self_empty (t : TableSchema) :
    (DiffSchemas t t).IsEmpty = true := by
  unfold DiffSchemas
  have hsound := makeColumnMap_sound t.Columns
  rw [if_neg (by omega)]
  simp only
  rw [foldl_id_of_step_id _ _ _ (fun e he acc => by
    rw [hsound.2 e he])]
  rw [foldl_id_of_step_id _ _ _ (fun e he acc => by
    rw [hsound.2 e he]
    exact handleChangedColumn_self _ _ acc)]
  rw [if_pos (stringSlicesEqual_self _)]
  rfl

/-- C9: diffing a normalized schema against itself yields an empty diff
(no up and no down statements). -/
theorem diffSchemas_normalize_self_empty (s : TableSchema) :
    (DiffSchemas (NormalizeSchema s) (NormalizeSchema s)).IsEmpty = true :=
  diffSchemas_self_empty (NormalizeSchema s)

/-- Growth relation on diffs: a handler either leaves both statement lists
at their previous length or strictly extends both. -/
def GrowsTo (a b : TableDiff) : Prop :=
  (b.Up.length = a.Up.length ∧ b.Down.length = a.Down.length) ∨
  (a.Up.length < b.Up.length ∧ a.Down.length < b.Down.length)

theorem growsTo_refl (a : TableDiff) : GrowsTo a a := Or.inl ⟨rfl, rfl⟩

theorem growsTo_trans {a b c : TableDiff} (h1 : GrowsTo a b)
    (h2 : GrowsTo b c) : GrowsTo a c := by
  rcases h1 with ⟨hu1, hd1⟩ | ⟨hu1, hd1⟩ <;> rcases h2 with ⟨hu2, hd2⟩ | ⟨hu2, hd2⟩
  · exact Or.inl ⟨hu2.trans hu1, hd2.trans hd1⟩
  · exact Or.inr ⟨hu1 ▸ hu2, hd1 ▸ hd2⟩
  · exact Or.inr ⟨hu2 ▸ hu1, hd2 ▸ hd1⟩
  · exact Or.inr ⟨hu1.trans hu2, hd1.trans hd2⟩

theorem growsTo_pair (mig : TableDiff) (a b : String) :
    GrowsTo mig (pushDownFront (pushUp mig a) b) := by
  right
  simp [pushUp, pushDownFront]

theorem growsTo_addUniqueConstraint (t : String) (c : ColumnMeta)
    (mig : TableDiff) : GrowsTo mig (addUniqueConstraint t c mig) := by
  unfold addUniqueConstraint
  exact growsTo_pair mig _ _

theorem growsTo_dropUniqueConstraint (t : String) (c : ColumnMeta)
    (mig : TableDiff) : GrowsTo mig (dropUniqueConstraint t c mig) := by
  unfold dropUniqueConstraint
  exact growsTo_pair mig _ _

theorem growsTo_addForeignKey (t : String) (c : ColumnMeta) (mig : TableDiff) :
    GrowsTo mig (addForeignKey t c mig) := by
  unfold addForeignKey
  cases c.Attrs.ForeignKey with
  | none => exact growsTo_refl mig
  | some fk =>
    right
    simp

theorem growsTo_handleAddedColumn (t : String) (c : ColumnMeta)
    (mig : TableDiff) : GrowsTo mig (handleAddedColumn t c mig) := by
  unfold handleAddedColumn
  have base : ∀ m1 : TableDiff,
      (m1.Up.length > mig.Up.length ∧ m1.Down.length = mig.Down.length) →
      GrowsTo mig
        (if c.Attrs.ForeignKey.isSome then
          addForeignKey t c
            (if c.Attrs.Unique then addUniqueConstraint t c (pushDownFront m1 ("ALTER TABLE " ++ quoteIdent t ++ " DROP COLUMN IF EXISTS " ++ quoteIdent c.ColumnName)) else pushDownFront m1 ("ALTER TABLE " ++ quoteIdent t ++ " DROP COLUMN IF EXISTS " ++ quoteIdent c.ColumnName))
        else
          (if c.Attrs.Unique then addUniqueConstraint t c (pushDownFront m1 ("ALTER TABLE " ++ quoteIdent t ++ " DROP COLUMN IF EXISTS " ++ quoteIdent c.ColumnName)) else pushDownFront m1 ("ALTER TABLE " ++ quoteIdent t ++ " DROP COLUMN IF EXISTS " ++ quoteIdent c.ColumnName))) := by
    intro m1 hm1
    have h2 : GrowsTo mig (pushDownFront m1 ("ALTER TABLE " ++ quoteIdent t
        ++ " DROP COLUMN IF EXISTS " ++ quoteIdent c.ColumnName)) := by
      right
      simp only [pushDownFront, List.length_cons]
      omega
    have h3 : GrowsTo mig (if c.Attrs.Unique then addUniqueConstraint t c
        (pushDownFront m1 ("ALTER TABLE " ++ quoteIdent t
          ++ " DROP COLUMN IF EXISTS " ++ quoteIdent c.ColumnName))
        else pushDownFront m1 ("ALTER TABLE " ++ quoteIdent t
          ++ " DROP COLUMN IF EXISTS " ++ quoteIdent c.ColumnName)) := by
      by_cases hu : c.Attrs.Unique = true
      · rw [if_pos hu]
        exact growsTo_trans h2 (growsTo_addUniqueConstraint _ _ _)
      · rw [if_neg hu]
        exact h2
    by_cases hf : c.Attrs.ForeignKey.isSome = true
    · rw [if_pos hf]
      exact growsTo_trans h3 (growsTo_addForeignKey _ _ _)
    · rw [if_neg hf]
      exact h3
  cases hn : c.Attrs.NotNull with
  | true =>
    cases hd : c.Attrs.Default with
    | none =>
      apply base
      simp [pushUp]
    | some v =>
      apply base
      simp [pushUp]
  | false =>
    apply base
    simp [pushUp]


theorem growsTo_handleForeignKeyChanges (t : String) (oc nc : ColumnMeta)
    (mig : TableDiff) : GrowsTo mig (handleForeignKeyChanges t oc nc mig) := by
  unfold handleForeignKeyChanges
  cases ho : oc.Attrs.ForeignKey with
  | none =>
    cases hn : nc.Attrs.ForeignKey with
    | none => exact growsTo_refl mig
    | some nfk => exact growsTo_addForeignKey t nc mig
  | some ofk =>
    cases hn : nc.Attrs.ForeignKey with
    | none => exact growsTo_pair mig _ _
    | some nfk =>
      dsimp only
      rcases Bool.eq_false_or_eq_true (decide (ofk.Table ≠ nfk.Table ∨
          ofk.Column ≠ nfk.Column ∨ ofk.OnDelete ≠ nfk.OnDelete ∨
          ofk.OnUpdate ≠ nfk.OnUpdate)) with hb | hb
      · rw [hb]
        exact growsTo_trans (growsTo_pair mig _ _) (growsTo_addForeignKey t nc _)
      · rw [hb]
        exact growsTo_refl mig

theorem growsTo_changedColType (t : String) (oc nc : ColumnMeta)
    (mig : TableDiff) : GrowsTo mig (changedColType t oc nc mig) := by
  unfold changedColType
  split_ifs
  · exact growsTo_pair mig _ _
  · exact growsTo_refl mig

theorem growsTo_changedColNotNull (t : String) (oc nc : ColumnMeta)
    (mig : TableDiff) : GrowsTo mig (changedColNotNull t oc nc mig) := by
  unfold changedColNotNull
  split_ifs
  · exact growsTo_pair mig _ _
  · exact growsTo_pair mig _ _
  · exact growsTo_refl mig

theorem growsTo_changedColDefault (t : String) (oc nc : ColumnMeta)
    (mig : TableDiff) : GrowsTo mig (changedColDefault t oc nc mig) := by
  unfold changedColDefault
  cases hod : oc.Attrs.Default <;> cases hnd : nc.Attrs.Default <;>
    (dsimp only; split_ifs) <;>
    first
      | exact growsTo_refl mig
      | exact growsTo_pair mig _ _

theorem growsTo_changedColUnique (t : String) (oc nc : ColumnMeta)
    (mig : TableDiff) : GrowsTo mig (changedColUnique t oc nc mig) := by
  unfold changedColUnique
  split_ifs
  · exact growsTo_addUniqueConstraint t nc mig
  · exact growsTo_dropUniqueConstraint t oc mig
  · exact growsTo_refl mig

theorem growsTo_handleChangedColumn (t : String) (oc nc : ColumnMeta)
    (mig : TableDiff) : GrowsTo mig (handleChangedColumn t oc nc mig) := by
  unfold handleChangedColumn
  exact growsTo_trans (growsTo_trans (growsTo_trans (growsTo_trans
    (growsTo_changedColType t oc nc mig)
    (growsTo_changedColNotNull t oc nc _))
    (growsTo_changedColDefault t oc nc _))
    (growsTo_changedColUnique t oc nc _))
    (growsTo_handleForeignKeyChanges t oc nc _)

theorem growsTo_handleRemovedColumn (t : String) (oc : ColumnMeta)
    (mig : TableDiff) : GrowsTo mig (handleRemovedColumn t oc mig) := by
  unfold handleRemovedColumn
  right
  constructor
  · simp [pushUp, pushDownFront]
  · simp [pushUp, pushDownFront]

theorem growsTo_handlePKChanges (t : String) (oldPKs newPKs : List String)
    (mig : TableDiff) : GrowsTo mig (handlePKChanges t oldPKs newPKs mig) := by
  unfold handlePKChanges
  split_ifs
  · exact growsTo_trans (growsTo_pair mig _ _) (growsTo_pair _ _ _)
  · exact growsTo_pair mig _ _
  · exact growsTo_pair mig _ _
  · exact growsTo_refl mig

theorem growsTo_foldl {α : Type} (m : List α) (step : TableDiff → α → TableDiff)
    (a : TableDiff) (h : ∀ e ∈ m, ∀ acc, GrowsTo acc (step acc e)) :
    GrowsTo a (m.foldl step a) := by
  induction m generalizing a with
  | nil => exact growsTo_refl a
  | cons e rest ih =>
    rw [List.foldl_cons]
    exact growsTo_trans (h e (by simp) a)
      (ih (step a e) (fun x hx acc => h x (by simp [hx]) acc))

theorem growsTo_lengths {a b : TableDiff} (h : GrowsTo a b) :
    a.Up.length ≤ b.Up.length ∧ a.Down.length ≤ b.Down.length := by
  rcases h with ⟨hu, hd⟩ | ⟨hu, hd⟩ <;> omega

theorem fkFold_nonempty (tname : String) (cols : List ColumnMeta)
    (u d : String) (r1 r2 : List String) :
    0 < (cols.foldl
        (fun (mig : TableDiff) (c : ColumnMeta) =>
          if c.Attrs.ForeignKey.isSome then addForeignKey tname c mig
          else mig) ⟨u :: r1, d :: r2⟩).Up.length ∧
    0 < (cols.foldl
        (fun (mig : TableDiff) (c : ColumnMeta) =>
          if c.Attrs.ForeignKey.isSome then addForeignKey tname c mig
          else mig) ⟨u :: r1, d :: r2⟩).Down.length := by
  have h := growsTo_lengths (growsTo_foldl cols
    (fun (mig : TableDiff) (c : ColumnMeta) =>
      if c.Attrs.ForeignKey.isSome then addForeignKey tname c mig else mig)
    ⟨u :: r1, d :: r2⟩
    (fun e he acc => by
      show GrowsTo acc (if e.Attrs.ForeignKey.isSome then addForeignKey tname e acc
        else acc)
      split_ifs
      · exact growsTo_addForeignKey tname e acc
      · exact growsTo_refl acc))
  simp only [List.length_cons] at h
  omega

theorem generateCreateTableDiff_nonempty (nw : TableSchema) :
    0 < (generateCreateTableDiff nw).Up.length ∧
    0 < (generateCreateTableDiff nw).Down.length := by
  unfold generateCreateTableDiff
  exact fkFold_nonempty nw.TableName nw.Columns _ _ [] []

/-- C10: in every diff the up list is empty exactly when the down list is
empty, and `IsEmpty` coincides with emptiness of either list. -/
theorem diffSchemas_up_empty_iff_down_empty (old nw : TableSchema) :
    ((DiffSchemas old nw).Up = [] ↔ (DiffSchemas old nw).Down = []) ∧
    ((DiffSchemas old nw).IsEmpty = true ↔ (DiffSchemas old nw).Up = []) := by
  have key : ((DiffSchemas old nw).Up.length = 0 ∧
        (DiffSchemas old nw).Down.length = 0) ∨
      (0 < (DiffSchemas old nw).Up.length ∧
        0 < (DiffSchemas old nw).Down.length) := by
    unfold DiffSchemas
    by_cases hc : (makeColumnMap old.Columns).length = 0 ∧
        (makeColumnMap nw.Columns).length > 0
    · rw [if_pos hc]
      exact Or.inr (generateCreateTableDiff_nonempty nw)
    · rw [if_neg hc]
      have h1 : GrowsTo (⟨[], []⟩ : TableDiff)
          ((makeColumnMap nw.Columns).foldl
            (fun mig e =>
              match lookupG (makeColumnMap old.Columns) e.1 with
              | none => handleAddedColumn nw.TableName e.2 mig
              | some oldCol => handleChangedColumn nw.TableName oldCol e.2 mig)
            ⟨[], []⟩) := by
        apply growsTo_foldl
        intro e he acc
        show GrowsTo acc (match lookupG (makeColumnMap old.Columns) e.1 with
          | none => handleAddedColumn nw.TableName e.2 acc
          | some oldCol => handleChangedColumn nw.TableName oldCol e.2 acc)
        cases lookupG (makeColumnMap old.Columns) e.1 with
        | none => exact growsTo_handleAddedColumn _ _ _
        | some oldCol => exact growsTo_handleChangedColumn _ _ _ _
      have h2 : GrowsTo
          ((makeColumnMap nw.Columns).foldl
            (fun mig e =>
              match lookupG (makeColumnMap old.Columns) e.1 with
              | none => handleAddedColumn nw.TableName e.2 mig
              | some oldCol => handleChangedColumn nw.TableName oldCol e.2 mig)
            ⟨[], []⟩)
          ((makeColumnMap old.Columns).foldl
            (fun mig e =>
              match lookupG (makeColumnMap nw.Columns) e.1 with
              | none => handleRemovedColumn old.TableName e.2 mig
              | some _ => mig)
            ((makeColumnMap nw.Columns).foldl
              (fun mig e =>
                match lookupG (makeColumnMap old.Columns) e.1 with
                | none => handleAddedColumn nw.TableName e.2 mig
                | some oldCol => handleChangedColumn nw.TableName oldCol e.2 mig)
              ⟨[], []⟩)) := by
        apply growsTo_foldl
        intro e he acc
        show GrowsTo acc (match lookupG (makeColumnMap nw.Columns) e.1 with
          | none => handleRemovedColumn old.TableName e.2 acc
          | some _ => acc)
        cases lookupG (makeColumnMap nw.Columns) e.1 with
        | none => exact growsTo_handleRemovedColumn _ _ _
        | some _ => exact growsTo_refl acc
      have h3 := growsTo_trans h1 h2
      by_cases hpk : stringSlicesEqual (collectPKs old) (collectPKs nw) = true
      · rw [if_pos hpk]
        rcases h3 with ⟨hu, hd⟩ | ⟨hu, hd⟩
        · exact Or.inl ⟨by simpa using hu, by simpa using hd⟩
        · exact Or.inr ⟨by simpa using hu, by simpa using hd⟩
      · rw [if_neg hpk]
        have h4 := growsTo_trans h3
          (growsTo_handlePKChanges nw.TableName (collectPKs old) (collectPKs nw) _)
        rcases h4 with ⟨hu, hd⟩ | ⟨hu, hd⟩
        · exact Or.inl ⟨by simpa using hu, by simpa using hd⟩
        · exact Or.inr ⟨by simpa using hu, by simpa using hd⟩
  constructor
  · rcases key with ⟨hu, hd⟩ | ⟨hu, hd⟩
    · rw [List.length_eq_zero] at hu hd
      rw [hu, hd]
    · refine iff_of_false ?_ ?_
      · intro h; rw [h] at hu; simp at hu
      · intro h; rw [h] at hd; simp at hd
  · rcases key with ⟨hu, hd⟩ | ⟨hu, hd⟩
    · refine iff_of_true ?_ ?_
      · unfold TableDiff.IsEmpty
        rw [hu, hd]
        rfl
      · rw [← List.length_eq_zero]; exact hu
    · refine iff_of_false ?_ ?_
      · intro h
        unfold TableDiff.IsEmpty at h
        rw [Bool.and_eq_true] at h
        have h1 : (DiffSchemas old nw).Up.length = 0 := eq_of_beq h.1
        omega
      · intro h; rw [h] at hu; simp at hu


/-! ## Runner theorems (C2, C3, C6, C7) -/

theorem charListLe_total (a b : List Char) :
    charListLe a b = true ∨ charListLe b a = true := by
  induction a generalizing b with
  | nil => left; rfl
  | cons x xs ih =>
    cases b with
    | nil => right; rfl
    | cons y ys =>
      unfold charListLe
      rcases Nat.lt_trichotomy x.toNat y.toNat with h | h | h
      · left; rw [if_pos h]
      · rw [if_neg (by omega), if_neg (by omega), if_neg (by omega),
          if_neg (by omega)]
        exact ih ys
      · right; rw [if_pos h]

theorem charListLe_trans {a b c : List Char} (hab : charListLe a b = true)
    (hbc : charListLe b c = true) : charListLe a c = true := by
  induction a generalizing b c with
  | nil => rfl
  | cons x xs ih =>
    cases b with
    | nil => simp [charListLe] at hab
    | cons y ys =>
      cases c with
      | nil => simp [charListLe] at hbc
      | cons z zs =>
        unfold charListLe at hab hbc ⊢
        by_cases h1 : x.toNat < y.toNat
        · by_cases h2 : y.toNat < z.toNat
          · rw [if_pos (show x.toNat < z.toNat by omega)]
          · by_cases h3 : z.toNat < y.toNat
            · rw [if_neg h2, if_pos h3] at hbc
              simp at hbc
            · rw [if_pos (show x.toNat < z.toNat by omega)]
        · by_cases h4 : y.toNat < x.toNat
          · rw [if_neg h1, if_pos h4] at hab
            simp at hab
          · rw [if_neg h1, if_neg h4] at hab
            by_cases h2 : y.toNat < z.toNat
            · rw [if_pos (show x.toNat < z.toNat by omega)]
            · by_cases h3 : z.toNat < y.toNat
              · rw [if_neg h2, if_pos h3] at hbc
                simp at hbc
              · rw [if_neg (show ¬x.toNat < z.toNat by omega),
                  if_neg (show ¬z.toNat < x.toNat by omega)]
                rw [if_neg h2, if_neg h3] at hbc
                exact ih hab hbc

theorem strLe_total (a b : String) : strLe a b = true ∨ strLe b a = true :=
  charListLe_total a.data b.data

theorem strLe_trans {a b c : String} (hab : strLe a b = true)
    (hbc : strLe b c = true) : strLe a c = true :=
  charListLe_trans hab hbc

theorem perm_insertSorted (x : String) (l : List String) :
    (insertSorted x l).Perm (x :: l) := by
  induction l with
  | nil => exact List.Perm.refl _
  | cons y ys ih =>
    unfold insertSorted
    by_cases h : strLe x y = true
    · rw [if_pos h]
    · rw [if_neg h]
      exact (ih.cons y).trans (List.Perm.swap x y ys)

theorem perm_sortStrings (l : List String) : (sortStrings l).Perm l := by
  induction l with
  | nil => exact List.Perm.refl _
  | cons x xs ih =>
    unfold sortStrings at *
    rw [List.foldr_cons]
    exact (perm_insertSorted x _).trans (ih.cons x)

theorem pairwise_insertSorted (x : String) (l : List String)
    (hl : l.Pairwise (fun a b => strLe a b = true)) :
    (insertSorted x l).Pairwise (fun a b => strLe a b = true) := by
  induction l with
  | nil => simp [insertSorted]
  | cons y ys ih =>
    rw [List.pairwise_cons] at hl
    unfold insertSorted
    by_cases h : strLe x y = true
    · rw [if_pos h]
      rw [List.pairwise_cons]
      constructor
      · intro z hz
        rcases List.mem_cons.mp hz with h2 | h2
        · rw [h2]; exact h
        · exact strLe_trans h (hl.1 z h2)
      · rw [List.pairwise_cons]
        exact hl
    · rw [if_neg h]
      rw [List.pairwise_cons]
      constructor
      · intro z hz
        rcases List.mem_cons.mp ((perm_insertSorted x ys).mem_iff.mp hz) with h2 | h2
        · rw [h2]
          exact (strLe_total x y).resolve_left h
        · exact hl.1 z h2
      · exact ih hl.2

theorem pairwise_sortStrings (l : List String) :
    (sortStrings l).Pairwise (fun a b => strLe a b = true) := by
  induction l with
  | nil => exact List.Pairwise.nil
  | cons x xs ih =>
    unfold sortStrings at *
    rw [List.foldr_cons]
    exact pairwise_insertSorted x _ ih

/-- Characterization of the Run loop: the newly applied names extend the
accumulator and the ledger in lockstep; every newly applied base was
pending, non-blank, executed and recorded successfully; an execution
error identifies a pending non-blank base whose SQL failed; whitespace
bases are never applied. -/
theorem runLoop_spec (env : RunEnv) (S bases accA accL : List String) :
    ∃ X : List String,
      (runLoop env S bases accA accL).appliedNow = accA ++ X ∧
      (runLoop env S bases accA accL).ledger = accL ++ X ∧
      (∀ b ∈ X, S.contains b = false ∧ b ∈ bases ∧
        ∃ c, env.content (b ++ ".up.sql") = some c ∧ strTrimSpace c ≠ "" ∧
          env.execOk c = true ∧ env.recordOk b = true) ∧
      (∀ b, (runLoop env S bases accA accL).err = some (RunErr.execErr b) →
        S.contains b = false ∧ b ∈ bases ∧
        ∃ c, env.content (b ++ ".up.sql") = some c ∧ strTrimSpace c ≠ "" ∧
          env.execOk c = false) ∧
      (∀ b ∈ bases, (∃ c, env.content (b ++ ".up.sql") = some c ∧
        strTrimSpace c = "") → b ∉ X) := by
  induction bases generalizing accA accL with
  | nil =>
    refine ⟨[], by simp [runLoop], by simp [runLoop], by simp, ?_, by simp⟩
    intro b hb
    simp [runLoop] at hb
  | cons base rest ih =>
    unfold runLoop
    by_cases hS : S.contains base = true
    · rw [if_pos hS]
      obtain ⟨X, h1, h2, h3, h4, h5⟩ := ih accA accL
      refine ⟨X, h1, h2, ?_, ?_, ?_⟩
      · intro b hb
        obtain ⟨hc, hm, hrest⟩ := h3 b hb
        exact ⟨hc, List.mem_cons.mpr (Or.inr hm), hrest⟩
      · intro b hb
        obtain ⟨hc, hm, hrest⟩ := h4 b hb
        exact ⟨hc, List.mem_cons.mpr (Or.inr hm), hrest⟩
      · intro b hb hws
        rcases List.mem_cons.mp hb with hb1 | hb1
        · intro hbX
          obtain ⟨hc, _, _⟩ := h3 b hbX
          rw [hb1] at hc
          rw [hS] at hc
          exact Bool.noConfusion hc
        · exact h5 b hb1 hws
    · rw [if_neg hS]
      have hS2 : S.contains base = false := by
        cases h : S.contains base
        · rfl
        · exact absurd h hS
      cases hc : env.content (base ++ ".up.sql") with
      | none =>
        refine ⟨[], by simp, by simp, by simp, ?_, by simp⟩
        intro b hb
        simp at hb
      | some c =>
        dsimp only
        by_cases hws : strTrimSpace c = ""
        · rw [if_pos hws]
          obtain ⟨X, h1, h2, h3, h4, h5⟩ := ih accA accL
          refine ⟨X, h1, h2, ?_, ?_, ?_⟩
          · intro b hb
            obtain ⟨hcb, hm, hrest⟩ := h3 b hb
            exact ⟨hcb, List.mem_cons.mpr (Or.inr hm), hrest⟩
          · intro b hb
            obtain ⟨hcb, hm, hrest⟩ := h4 b hb
            exact ⟨hcb, List.mem_cons.mpr (Or.inr hm), hrest⟩
          · intro b hb hws2
            rcases List.mem_cons.mp hb with hb1 | hb1
            · intro hbX
              obtain ⟨_, _, c2, hc2, hne, _⟩ := h3 b hbX
              rw [hb1] at hc2
              rw [hc] at hc2
              cases hc2
              exact hne hws
            · exact h5 b hb1 hws2
        · rw [if_neg hws]
          by_cases hex : env.execOk c = true
          · rw [if_pos hex]
            by_cases hrec : env.recordOk base = true
            · rw [if_pos hrec]
              obtain ⟨X, h1, h2, h3, h4, h5⟩ := ih (accA ++ [base]) (accL ++ [base])
              refine ⟨base :: X, by simpa using h1, by simpa using h2, ?_, ?_, ?_⟩
              · intro b hb
                rcases List.mem_cons.mp hb with hb1 | hb1
                · subst hb1
                  exact ⟨hS2, List.mem_cons.mpr (Or.inl rfl), c, hc, hws, hex, hrec⟩
                · obtain ⟨hcb, hm, hrest⟩ := h3 b hb1
                  exact ⟨hcb, List.mem_cons.mpr (Or.inr hm), hrest⟩
              · intro b hb
                obtain ⟨hcb, hm, hrest⟩ := h4 b hb
                exact ⟨hcb, List.mem_cons.mpr (Or.inr hm), hrest⟩
              · intro b hb hws2
                rcases List.mem_cons.mp hb with hb1 | hb1
                · intro hbX
                  obtain ⟨c2, hc2, hws3⟩ := hws2
                  rw [hb1, hc] at hc2
                  cases hc2
                  exact hws hws3
                · intro hbX
                  rcases List.mem_cons.mp hbX with hb2 | hb2
                  · obtain ⟨c2, hc2, hws3⟩ := hws2
                    rw [hb2] at hc2
                    rw [hc] at hc2
                    cases hc2
                    exact hws hws3
                  · exact h5 b hb1 hws2 hb2
            · rw [if_neg hrec]
              refine ⟨[], by simp, by simp, by simp, ?_, by simp⟩
              intro b hb
              simp at hb
          · rw [if_neg hex]
            have hex2 : env.execOk c = false := by
              cases h : env.execOk c
              · rfl
              · exact absurd h hex
            refine ⟨[], by simp, by simp, by simp, ?_, by simp⟩
            intro b hb
            simp at hb
            subst hb
            exact ⟨hS2, List.mem_cons.mpr (Or.inl rfl), c, hc, hws, hex2⟩

theorem contains_false_iff (l : List String) (a : String) :
    l.contains a = false ↔ a ∉ l := by
  constructor
  · intro h hmem
    have h2 : l.contains a = true := List.elem_iff.mpr hmem
    rw [h] at h2
    exact Bool.noConfusion h2
  · intro h
    cases h2 : l.contains a
    · rfl
    · exact absurd (List.elem_iff.mp h2) h

/-- C6: during `Run`, the pending up-files are scanned in sorted
lexicographic file order; the ledger after the call extends the previous
ledger by exactly the names applied now in order; every name applied now
was pending, its file non-blank, and its SQL executed successfully; an
SQL failure aborts the run with the applied-so-far list and leaves the
failed migration without a ledger row; a whitespace-only up-file is
skipped and never recorded. -/
theorem run_processing_spec (env : RunEnv) (applied : List String) :
    (filterUpFiles (getMigrationFiles env)).Pairwise (fun a b => strLe a b = true) ∧
    (Run env applied).ledger = applied ++ (Run env applied).appliedNow ∧
    (∀ b ∈ (Run env applied).appliedNow,
      b ∉ applied ∧ b ∈ runBases env ∧
      ∃ c, env.content (b ++ ".up.sql") = some c ∧ strTrimSpace c ≠ "" ∧
        env.execOk c = true) ∧
    (∀ b, (Run env applied).err = some (RunErr.execErr b) →
      b ∉ (Run env applied).ledger ∧ b ∈ runBases env ∧ b ∉ applied ∧
      ∃ c, env.content (b ++ ".up.sql") = some c ∧ strTrimSpace c ≠ "" ∧
        env.execOk c = false) ∧
    (∀ b ∈ runBases env,
      (∃ c, env.content (b ++ ".up.sql") = some c ∧ strTrimSpace c = "") →
      b ∉ (Run env applied).appliedNow) := by
  obtain ⟨X, h1, h2, h3, h4, h5⟩ := runLoop_spec env applied (runBases env) [] applied
  have hA : (Run env applied).appliedNow = X := by
    unfold Run; rw [h1]; simp
  have hL : (Run env applied).ledger = applied ++ X := h2
  refine ⟨?_, ?_, ?_, ?_, ?_⟩
  · unfold filterUpFiles
    exact pairwise_sortStrings _
  · rw [hL, hA]
  · intro b hb
    rw [hA] at hb
    obtain ⟨hc, hm, c, hcc, hws, hex, _⟩ := h3 b hb
    exact ⟨(contains_false_iff _ _).mp hc, hm, c, hcc, hws, hex⟩
  · intro b hb
    have hb2 : (runLoop env applied (runBases env) [] applied).err =
        some (RunErr.execErr b) := hb
    obtain ⟨hc, hm, c, hcc, hws, hex⟩ := h4 b hb2
    have hnapp : b ∉ applied := (contains_false_iff _ _).mp hc
    refine ⟨?_, hm, hnapp, c, hcc, hws, hex⟩
    rw [hL]
    intro hmem
    rcases List.mem_append.mp hmem with h | h
    · exact hnapp h
    · obtain ⟨_, _, c2, hcc2, _, hex2, _⟩ := h3 b h
      rw [hcc] at hcc2
      cases hcc2
      rw [hex] at hex2
      exact Bool.noConfusion hex2
  · intro b hm hws
    rw [hA]
    exact h5 b hm hws

/-- Success of the Run loop puts every pending non-blank base into the
final ledger. -/
theorem runLoop_success_mem (env : RunEnv) (S : List String)
    (bases : List String) :
    ∀ accA accL : List String,
      (runLoop env S bases accA accL).err = none →
      ∀ b ∈ bases, S.contains b = false →
        ∀ c, env.content (b ++ ".up.sql") = some c → strTrimSpace c ≠ "" →
          b ∈ (runLoop env S bases accA accL).ledger := by
  induction bases with
  | nil =>
    intro accA accL hok b hb
    simp at hb
  | cons base rest ih =>
    intro accA accL hok b hb hSb c hc hws
    unfold runLoop at hok ⊢
    by_cases hS : S.contains base = true
    · rw [if_pos hS] at hok ⊢
      rcases List.mem_cons.mp hb with hb1 | hb1
      · rw [hb1] at hSb
        rw [hSb] at hS
        exact Bool.noConfusion hS
      · exact ih accA accL hok b hb1 hSb c hc hws
    · rw [if_neg hS] at hok ⊢
      cases hcb : env.content (base ++ ".up.sql") with
      | none =>
        rw [hcb] at hok
        simp at hok
      | some c0 =>
        rw [hcb] at hok
        dsimp only at hok ⊢
        by_cases hws0 : strTrimSpace c0 = ""
        · rw [if_pos hws0] at hok ⊢
          rcases List.mem_cons.mp hb with hb1 | hb1
          · rw [hb1] at hc
            rw [hcb] at hc
            cases hc
            exact absurd hws0 hws
          · exact ih accA accL hok b hb1 hSb c hc hws
        · rw [if_neg hws0] at hok ⊢
          by_cases hex : env.execOk c0 = true
          · rw [if_pos hex] at hok ⊢
            by_cases hrec : env.recordOk base = true
            · rw [if_pos hrec] at hok ⊢
              rcases List.mem_cons.mp hb with hb1 | hb1
              · obtain ⟨X, _, hl, _, _, _⟩ :=
                  runLoop_spec env S rest (accA ++ [base]) (accL ++ [base])
                rw [hl, hb1]
                simp
              · exact ih _ _ hok b hb1 hSb c hc hws
            · rw [if_neg hrec] at hok
              simp at hok
          · rw [if_neg hex] at hok
            simp at hok

/-- C2 (amended): after a successful `Run`, the ledger is the previous
ledger extended by exactly the names applied in this run, and every
up-file whose contents are not whitespace-only has a ledger row. -/
theorem run_success_ledger (env : RunEnv) (applied : List String)
    (hok : (Run env applied).err = none) :
    (Run env applied).ledger = applied ++ (Run env applied).appliedNow ∧
    (∀ b ∈ applied, b ∈ (Run env applied).ledger) ∧
    ∀ b ∈ runBases env, b ∉ applied →
      ∀ c, env.content (b ++ ".up.sql") = some c → strTrimSpace c ≠ "" →
        b ∈ (Run env applied).ledger := by
  obtain ⟨X, h1, h2, _, _, _⟩ := runLoop_spec env applied (runBases env) [] applied
  have hA : (Run env applied).appliedNow = X := by
    unfold Run; rw [h1]; simp
  have hL : (Run env applied).ledger = applied ++ X := h2
  refine ⟨by rw [hL, hA], ?_, ?_⟩
  · intro b hb
    rw [hL]
    exact List.mem_append.mpr (Or.inl hb)
  · intro b hm hnapp c hc hws
    exact runLoop_success_mem env applied (runBases env) [] applied hok b hm
      ((contains_false_iff _ _).mpr hnapp) c hc hws

/-- Witness for the amended C2 theorem: one pending non-blank migration
gets applied and recorded. -/
theorem run_success_ledger_witness :
    (Run ⟨["m.up.sql"], fun f => if f = "m.up.sql" then some "create" else none,
        fun _ => true, fun _ => true⟩ []).err = none ∧
    ((Run ⟨["m.up.sql"], fun f => if f = "m.up.sql" then some "create" else none,
        fun _ => true, fun _ => true⟩ []).ledger =
      [] ++ (Run ⟨["m.up.sql"], fun f => if f = "m.up.sql" then some "create" else none,
        fun _ => true, fun _ => true⟩ []).appliedNow ∧
      (∀ b ∈ ([] : List String),
        b ∈ (Run ⟨["m.up.sql"], fun f => if f = "m.up.sql" then some "create" else none,
          fun _ => true, fun _ => true⟩ []).ledger) ∧
      ∀ b ∈ runBases ⟨["m.up.sql"], fun f => if f = "m.up.sql" then some "create" else none,
          fun _ => true, fun _ => true⟩, b ∉ ([] : List String) →
        ∀ c, (fun f => if f = "m.up.sql" then some "create" else none) (b ++ ".up.sql") = some c →
          strTrimSpace c ≠ "" →
          b ∈ (Run ⟨["m.up.sql"], fun f => if f = "m.up.sql" then some "create" else none,
            fun _ => true, fun _ => true⟩ []).ledger) :=
  ⟨by decide,
    run_success_ledger
      ⟨["m.up.sql"], fun f => if f = "m.up.sql" then some "create" else none,
        fun _ => true, fun _ => true⟩ [] (by decide)⟩

/-- C2 (counterexample): a whitespace-only up-file is present on disk,
the run succeeds, and yet the ledger has no row for it. -/
theorem run_whitespace_not_recorded_cex :
    (Run ⟨["a.up.sql"], fun f => if f = "a.up.sql" then some " " else none,
      fun _ => true, fun _ => true⟩ []).err = none ∧
    "a.up.sql" ∈ getMigrationFiles ⟨["a.up.sql"],
      fun f => if f = "a.up.sql" then some " " else none,
      fun _ => true, fun _ => true⟩ ∧
    "a" ∉ (Run ⟨["a.up.sql"], fun f => if f = "a.up.sql" then some " " else none,
      fun _ => true, fun _ => true⟩ []).ledger := by
  refine ⟨by decide, by decide, by decide⟩

/-- C3 (divergence at the failing input): with files `a.down.sql` and
`a.up.sql` on disk and base `a` recorded in the ledger, `Status` reports
both file names as pending (it compares full file names against ledger
base names), while the claim requires the empty pending list. -/
theorem status_pending_uses_file_names :
    (Status ⟨["a.down.sql", "a.up.sql"], fun _ => none, fun _ => true,
      fun _ => true⟩ ["a"]).2 = ["a.down.sql", "a.up.sql"] ∧
    statusPendingClaim ⟨["a.down.sql", "a.up.sql"], fun _ => none,
      fun _ => true, fun _ => true⟩ ["a"] = [] := by
  refine ⟨by decide, by decide⟩

theorem rollbackLoop_success (env : RollbackEnv) (l : List String) :
    ∀ pre rb : List String, (pre ++ l.reverse).Nodup →
      (rollbackLoop env l rb (pre ++ l.reverse)).err = none →
      (rollbackLoop env l rb (pre ++ l.reverse)).ledger = pre ∧
      (rollbackLoop env l rb (pre ++ l.reverse)).rolledBack = rb ++ l := by
  induction l with
  | nil =>
    intro pre rb hnd hok
    exact ⟨by simp [rollbackLoop], by simp [rollbackLoop]⟩
  | cons base rest ih =>
    intro pre rb hnd hok
    unfold rollbackLoop at hok ⊢
    dsimp only at hok ⊢
    by_cases hst : env.statExists (base ++ ".down.sql") = false
    · rw [if_pos hst] at hok
      simp at hok
    · rw [if_neg hst] at hok ⊢
      cases hcb : env.content (base ++ ".down.sql") with
      | none =>
        rw [hcb] at hok
        simp at hok
      | some c =>
        rw [hcb] at hok
        dsimp only at hok ⊢
        by_cases hws : strTrimSpace c = ""
        · rw [if_pos hws] at hok
          simp at hok
        · rw [if_neg hws] at hok ⊢
          by_cases hex : env.execOk c = true
          · rw [if_pos hex] at hok ⊢
            by_cases hrm : env.removeOk base = true
            · rw [if_pos hrm] at hok ⊢
              have hsplit : pre ++ (base :: rest).reverse =
                  (pre ++ rest.reverse) ++ [base] := by simp
              have hnd2 : ((pre ++ rest.reverse) ++ [base]).Nodup := by
                rw [← hsplit]; exact hnd
              have hb : base ∉ pre ++ rest.reverse := by
                rw [List.nodup_append] at hnd2
                intro hmem
                exact hnd2.2.2 hmem (by simp)
              have herase : (pre ++ (base :: rest).reverse).erase base =
                  pre ++ rest.reverse := by
                rw [hsplit, List.erase_append_right _ hb,
                  List.erase_cons_head, List.append_nil]
              rw [herase] at hok ⊢
              have hnd3 : (pre ++ rest.reverse).Nodup :=
                (List.nodup_append.mp hnd2).1
              obtain ⟨hl, hr⟩ := ih pre (rb ++ [base]) hnd3 hok
              refine ⟨hl, ?_⟩
              rw [hr]
              simp
            · rw [if_neg hrm] at hok
              simp at hok
          · rw [if_neg hex] at hok
            simp at hok

/-- C7: with a duplicate-free applied list (ledger names are a primary
key), a successful rollback of `n` removes exactly the last
`min n (length applied)` ledger rows, processing them in reverse
applied-at order; `n` larger than the applied count rolls back all. -/
theorem rollback_spec (env : RollbackEnv) (applied : List String) (n : Nat)
    (hnd : applied.Nodup) (hok : (Rollback env applied n).err = none) :
    (Rollback env applied n).ledger =
      applied.take (applied.length - min n applied.length) ∧
    (Rollback env applied n).rolledBack =
      (applied.drop (applied.length - min n applied.length)).reverse := by
  unfold Rollback at hok ⊢
  by_cases h0 : applied.length = 0
  · rw [if_pos h0] at hok ⊢
    have he : applied = [] := List.length_eq_zero.mp h0
    subst he
    simp
  · rw [if_neg h0] at hok ⊢
    dsimp only at hok ⊢
    have hkmin : (if n > applied.length then applied.length else n) =
        min n applied.length := by
      rw [Nat.min_def]
      split_ifs <;> omega
    rw [hkmin] at hok ⊢
    have harg : applied.take (applied.length - min n applied.length) ++
        ((applied.drop (applied.length - min n applied.length)).reverse).reverse =
        applied := by
      rw [List.reverse_reverse]
      exact List.take_append_drop _ _
    have hnd2 : (applied.take (applied.length - min n applied.length) ++
        ((applied.drop (applied.length - min n applied.length)).reverse).reverse).Nodup := by
      rw [harg]; exact hnd
    have hok2 : (rollbackLoop env
        (applied.drop (applied.length - min n applied.length)).reverse []
        (applied.take (applied.length - min n applied.length) ++
          ((applied.drop (applied.length - min n applied.length)).reverse).reverse)).err =
        none := by
      rw [harg]; exact hok
    obtain ⟨hl, hr⟩ := rollbackLoop_success env
      (applied.drop (applied.length - min n applied.length)).reverse
      (applied.take (applied.length - min n applied.length)) [] hnd2 hok2
    rw [harg] at hl hr
    refine ⟨hl, ?_⟩
    rw [hr]
    simp

/-- Witness for the C7 theorem: rolling back one of two applied
migrations leaves the first and reverts the second. -/
theorem rollback_spec_witness :
    ((["m1", "m2"] : List String).Nodup ∧
      (Rollback ⟨fun _ => true, fun _ => some "drop", fun _ => true,
        fun _ => true⟩ ["m1", "m2"] 1).err = none) ∧
    ((Rollback ⟨fun _ => true, fun _ => some "drop", fun _ => true,
        fun _ => true⟩ ["m1", "m2"] 1).ledger =
      (["m1", "m2"] : List String).take
        ((["m1", "m2"] : List String).length -
          min 1 (["m1", "m2"] : List String).length) ∧
      (Rollback ⟨fun _ => true, fun _ => some "drop", fun _ => true,
        fun _ => true⟩ ["m1", "m2"] 1).rolledBack =
      ((["m1", "m2"] : List String).drop
        ((["m1", "m2"] : List String).length -
          min 1 (["m1", "m2"] : List String).length)).reverse) :=
  ⟨⟨by decide, by decide⟩,
    rollback_spec ⟨fun _ => true, fun _ => some "drop", fun _ => true,
      fun _ => true⟩ ["m1", "m2"] 1 (by decide) (by decide)⟩

/-! ## Dependency sorter theorems (C8) -/

theorem lookupG_mem {α : Type} {g : List (String × α)} {k : String} {v : α}
    (h : lookupG g k = some v) : (k, v) ∈ g := by
  induction g with
  | nil => simp [lookupG] at h
  | cons e rest ih =>
    obtain ⟨k1, v1⟩ := e
    unfold lookupG at h
    by_cases hk : k1 = k
    · rw [if_pos hk] at h
      cases h
      simp [hk]
    · rw [if_neg hk] at h
      exact List.mem_cons.mpr (Or.inr (ih h))

theorem graphGet_mem {g : List (String × List String)} {k v : String}
    (h : v ∈ graphGet g k) : ∃ ds, (k, ds) ∈ g ∧ v ∈ ds := by
  unfold graphGet at h
  cases hl : lookupG g k with
  | none => rw [hl] at h; simp at h
  | some ds =>
    rw [hl] at h
    exact ⟨ds, lookupG_mem hl, h⟩

theorem remDeg_nil (g : List (String × List String)) (t : String) :
    remDeg g [] t = inDeg g t := by
  simp [remDeg, inDeg]

theorem remDeg_key_not_mem (g : List (String × List String))
    (processed : List String) (c t : String) (hc : c ∉ keysOf g) :
    remDeg g (processed ++ [c]) t = remDeg g processed t := by
  induction g with
  | nil => rfl
  | cons e rest ih =>
    simp only [keysOf, List.map_cons, List.mem_cons, not_or] at hc
    have hne : e.1 ≠ c := fun h => hc.1 h.symm
    have h1 : (if e.1 ∈ processed ++ [c] then (0 : Nat) else inDegEntry t e) =
        (if e.1 ∈ processed then 0 else inDegEntry t e) := by
      simp [List.mem_append, hne]
    have h2 := ih (by unfold keysOf; exact hc.2)
    unfold remDeg at h2 ⊢
    simp only [List.map_cons, List.sum_cons]
    rw [h1]
    omega

/-- Removing a fresh table from the unprocessed set: its outgoing non-self
edge multiplicities move out of the remaining degree. -/
theorem remDeg_append (g : List (String × List String))
    (hknd : (keysOf g).Nodup) (processed : List String) (current : String)
    (hc : current ∉ processed) (v : String) :
    remDeg g processed v =
      remDeg g (processed ++ [current]) v +
        (if v = current then 0 else (graphGet g current).count v) := by
  induction g with
  | nil => simp [remDeg, graphGet, lookupG]
  | cons e rest ih =>
    obtain ⟨k, ds⟩ := e
    simp only [keysOf, List.map_cons, List.nodup_cons] at hknd
    by_cases hk : k = current
    · subst hk
      have hget : graphGet ((k, ds) :: rest) k = ds := by
        simp [graphGet, lookupG]
      rw [hget]
      have hrest : remDeg rest (processed ++ [k]) v = remDeg rest processed v :=
        remDeg_key_not_mem rest processed k v (by unfold keysOf; exact hknd.1)
      unfold remDeg at hrest ⊢
      simp only [List.map_cons, List.sum_cons]
      rw [hrest]
      have hm2 : k ∈ processed ++ [k] := by simp
      rw [if_neg hc, if_pos hm2]
      by_cases hv : v = k
      · have h0 : inDegEntry v (k, ds) = 0 := by simp [inDegEntry, hv]
        rw [h0, if_pos hv]
        omega
      · have h0 : inDegEntry v (k, ds) = List.count v ds := by
          unfold inDegEntry
          exact if_neg (fun h => hv h.symm)
        rw [h0, if_neg hv]
        omega
    · have hget : graphGet ((k, ds) :: rest) current = graphGet rest current := by
        simp [graphGet, lookupG, hk]
      rw [hget]
      have hmem : (if k ∈ processed ++ [current] then (0 : Nat)
          else inDegEntry v (k, ds)) =
          (if k ∈ processed then 0 else inDegEntry v (k, ds)) := by
        simp [List.mem_append, hk]
      unfold remDeg
      simp only [List.map_cons, List.sum_cons]
      rw [hmem]
      have h2 := ih hknd.2
      unfold remDeg at h2
      omega

/-- A graph entry with an unprocessed source bounds the remaining degree
from below. -/
theorem remDeg_entry_le {g : List (String × List String)}
    {e : String × List String} (he : e ∈ g) (processed : List String)
    (hp : e.1 ∉ processed) (t : String) :
    inDegEntry t e ≤ remDeg g processed t := by
  induction g with
  | nil => simp at he
  | cons e1 rest ih =>
    unfold remDeg
    simp only [List.map_cons, List.sum_cons]
    rcases List.mem_cons.mp he with h1 | h1
    · subst h1
      rw [if_neg hp]
      omega
    · have h2 := ih h1
      unfold remDeg at h2
      omega

/-- Running the Go neighbor loop of `current` over `ds` decrements each
non-self counter by its multiplicity in `ds`. -/
theorem stepFold_deg (c : String) (ds : List String) :
    ∀ (deg : String → Int) (q : List String) (v : String),
      ((ds.foldl (stepNeighbor c) (deg, q)).1) v =
        deg v - (if v = c then 0 else (ds.count v : Int)) := by
  induction ds with
  | nil =>
    intro deg q v
    simp
  | cons d tl ih =>
    intro deg q v
    simp only [List.foldl_cons]
    have hcount : List.count v (d :: tl) = List.count v tl +
        (if d = v then 1 else 0) := by
      simp [List.count_cons, beq_iff_eq]
    by_cases hcd : c = d
    · have hstep : stepNeighbor c (deg, q) d = (deg, q) := by
        unfold stepNeighbor
        exact if_neg (fun h => h hcd)
      rw [hstep, ih]
      by_cases hv : v = c
      · rw [if_pos hv, if_pos hv]
      · have hdv : ¬(d = v) := by
          rw [← hcd]
          exact fun h => hv h.symm
        rw [if_neg hv, if_neg hv, hcount, if_neg hdv]
        simp
    · have hstep : stepNeighbor c (deg, q) d =
          (updDeg deg d (deg d - 1), if deg d - 1 = 0 then q ++ [d] else q) := by
        unfold stepNeighbor
        rw [if_pos hcd]
      rw [hstep, ih]
      simp only [updDeg]
      by_cases hv : v = c
      · subst hv
        have hvd : ¬(v = d) := hcd
        rw [if_neg hvd, if_pos rfl, if_pos rfl]
      · rw [if_neg hv, if_neg hv]
        by_cases hvd : v = d
        · subst hvd
          rw [if_pos rfl, hcount, if_pos rfl]
          push_cast
          ring
        · rw [if_neg hvd, hcount, if_neg (fun h => hvd h.symm)]
          push_cast
          ring

/-- Queue membership after the neighbor loop: a table joins the queue
exactly when its counter started positive and the loop drove it to (or
past) zero. -/
theorem stepFold_mem (c : String) (ds : List String) (deg : String → Int)
    (q : List String) (v : String) :
    v ∈ (ds.foldl (stepNeighbor c) (deg, q)).2 ↔
      v ∈ q ∨ (v ≠ c ∧ 1 ≤ deg v ∧ deg v ≤ (ds.count v : Int)) := by
  induction ds using List.reverseRecOn with
  | nil =>
    simp only [List.foldl_nil, List.count_nil]
    constructor
    · intro h
      exact Or.inl h
    · rintro (h | ⟨h1, h2, h3⟩)
      · exact h
      · simp only [Nat.cast_zero] at h3
        omega
  | append_singleton l d ihl =>
    rw [List.foldl_append]
    simp only [List.foldl_cons, List.foldl_nil]
    have hcount : List.count v (l ++ [d]) = List.count v l +
        (if d = v then 1 else 0) := by
      simp [List.count_append, List.count_singleton, beq_iff_eq]
    by_cases hcd : c = d
    · have hstep : stepNeighbor c (List.foldl (stepNeighbor c) (deg, q) l) d =
          List.foldl (stepNeighbor c) (deg, q) l := by
        unfold stepNeighbor
        exact if_neg (fun h => h hcd)
      rw [hstep, ihl]
      by_cases hvd : v = d
      · subst hvd
        constructor
        · rintro (h | ⟨h1, h2, h3⟩)
          · exact Or.inl h
          · exact absurd hcd.symm h1
        · rintro (h | ⟨h1, h2, h3⟩)
          · exact Or.inl h
          · exact absurd hcd.symm h1
      · rw [hcount, if_neg (fun h => hvd h.symm)]
        simp
    · have hdc : ¬(d = c) := fun h => hcd h.symm
      have hstep : stepNeighbor c (List.foldl (stepNeighbor c) (deg, q) l) d =
          (updDeg (List.foldl (stepNeighbor c) (deg, q) l).1 d
              ((List.foldl (stepNeighbor c) (deg, q) l).1 d - 1),
            if (List.foldl (stepNeighbor c) (deg, q) l).1 d - 1 = 0 then
              (List.foldl (stepNeighbor c) (deg, q) l).2 ++ [d]
            else (List.foldl (stepNeighbor c) (deg, q) l).2) := by
        unfold stepNeighbor
        rw [if_pos hcd]
      rw [hstep]
      have hdeg := stepFold_deg c l deg q d
      rw [if_neg hdc] at hdeg
      dsimp only
      by_cases hcond : (List.foldl (stepNeighbor c) (deg, q) l).1 d - 1 = 0
      · rw [hdeg] at hcond
        rw [if_pos (by rw [hdeg]; exact hcond)]
        simp only [List.mem_append, List.mem_singleton]
        rw [ihl, hcount]
        by_cases hvd : v = d
        · subst hvd
          rw [if_pos rfl]
          constructor
          · intro _
            exact Or.inr ⟨fun h => hcd h.symm, by omega, by push_cast; omega⟩
          · intro _
            exact Or.inr rfl
        · rw [if_neg (fun h => hvd h.symm)]
          constructor
          · rintro ((h | h) | h)
            · exact Or.inl h
            · exact Or.inr (by push_cast at h ⊢; exact h)
            · exact absurd h hvd
          · rintro (h | h)
            · exact Or.inl (Or.inl h)
            · exact Or.inl (Or.inr (by push_cast at h ⊢; exact h))
      · rw [if_neg hcond, ihl, hcount]
        rw [hdeg] at hcond
        by_cases hvd : v = d
        · subst hvd
          rw [if_pos rfl]
          constructor
          · rintro (h | ⟨h1, h2, h3⟩)
            · exact Or.inl h
            · exact Or.inr ⟨h1, h2, by push_cast; omega⟩
          · rintro (h | ⟨h1, h2, h3⟩)
            · exact Or.inl h
            · refine Or.inr ⟨h1, h2, ?_⟩
              push_cast at h3
              omega
        · rw [if_neg (fun h => hvd h.symm)]
          simp

/-- The neighbor loop keeps the queue duplicate-free when every queued
table already has a non-positive counter. -/
theorem stepFold_nodup (c : String) (ds : List String) (deg : String → Int)
    (q : List String) (hq : q.Nodup) (hle : ∀ v ∈ q, deg v ≤ 0) :
    (ds.foldl (stepNeighbor c) (deg, q)).2.Nodup := by
  induction ds using List.reverseRecOn with
  | nil => exact hq
  | append_singleton l d ihl =>
    rw [List.foldl_append]
    simp only [List.foldl_cons, List.foldl_nil]
    by_cases hcd : c = d
    · have hstep : stepNeighbor c (List.foldl (stepNeighbor c) (deg, q) l) d =
          List.foldl (stepNeighbor c) (deg, q) l := by
        unfold stepNeighbor
        exact if_neg (fun h => h hcd)
      rw [hstep]
      exact ihl
    · have hdc : ¬(d = c) := fun h => hcd h.symm
      have hstep : stepNeighbor c (List.foldl (stepNeighbor c) (deg, q) l) d =
          (updDeg (List.foldl (stepNeighbor c) (deg, q) l).1 d
              ((List.foldl (stepNeighbor c) (deg, q) l).1 d - 1),
            if (List.foldl (stepNeighbor c) (deg, q) l).1 d - 1 = 0 then
              (List.foldl (stepNeighbor c) (deg, q) l).2 ++ [d]
            else (List.foldl (stepNeighbor c) (deg, q) l).2) := by
        unfold stepNeighbor
        rw [if_pos hcd]
      rw [hstep]
      dsimp only
      by_cases hcond : (List.foldl (stepNeighbor c) (deg, q) l).1 d - 1 = 0
      · rw [if_pos hcond]
        have hdeg := stepFold_deg c l deg q d
        rw [if_neg hdc] at hdeg
        rw [hdeg] at hcond
        have hdnotin : d ∉ (List.foldl (stepNeighbor c) (deg, q) l).2 := by
          intro hmem
          rcases (stepFold_mem c l deg q d).mp hmem with h | ⟨h1, h2, h3⟩
          · have := hle d h
            omega
          · omega
        rw [List.nodup_append]
        refine ⟨ihl, List.nodup_singleton d, ?_⟩
        intro x hx hx2
        rw [List.mem_singleton] at hx2
        subst hx2
        exact hdnotin hx
      · rw [if_neg hcond]
        exact ihl

theorem indexOf_append_absent {a : String} {l1 l2 : List String} (h : a ∉ l1) :
    (l1 ++ l2).indexOf a = l1.length + l2.indexOf a := by
  induction l1 with
  | nil => simp
  | cons b t ih =>
    simp only [List.mem_cons, not_or] at h
    rw [List.cons_append, List.indexOf_cons_ne _ (fun hh => h.1 hh.symm), ih h.2]
    simp only [List.length_cons]
    omega

theorem kahnInv_init (g : List (String × List String)) (ts : List String)
    (hwf : GraphWF g ts) :
    KahnInv g ts (ts.filter (fun t => inDeg g t = 0)) []
      (fun t => (inDeg g t : Int)) := by
  constructor
  · simpa using hwf.tsNodup.filter _
  · intro v hv
    simp only [List.nil_append] at hv
    exact (List.mem_filter.mp hv).1
  · intro v
    rw [remDeg_nil]
  · intro v hv
    simp only [List.nil_append] at hv
    have h2 := (List.mem_filter.mp hv).2
    rw [remDeg_nil]
    exact of_decide_eq_true h2
  · intro u v _ _ hv
    simp at hv

theorem kahnInv_step {g : List (String × List String)} {ts : List String}
    {queue result : List String} {deg : String → Int} (hwf : GraphWF g ts)
    {c : String} (hinv : KahnInv g ts (c :: queue) result deg) :
    KahnInv g ts
      ((graphGet g c).foldl (stepNeighbor c) (deg, queue)).2
      (result ++ [c])
      ((graphGet g c).foldl (stepNeighbor c) (deg, queue)).1 := by
  have hnd0 : ((result ++ [c]) ++ queue).Nodup := by
    have h := hinv.nodup
    rwa [List.append_cons] at h
  have hRc : (result ++ [c]).Nodup := (List.nodup_append.mp hnd0).1
  have hqnd : queue.Nodup := (List.nodup_append.mp hnd0).2.1
  have hdisj : (result ++ [c]).Disjoint queue := (List.nodup_append.mp hnd0).2.2
  have hcR : c ∉ result := by
    intro hc
    exact (List.nodup_append.mp hRc).2.2 hc (List.mem_singleton.mpr rfl)
  have hlift : ∀ x, x ∈ result ++ [c] → x ∈ result ++ c :: queue := by
    intro x hx
    rcases List.mem_append.mp hx with h | h
    · exact List.mem_append_left _ h
    · rw [List.mem_singleton] at h
      subst h
      exact List.mem_append_right _ (List.mem_cons_self _ _)
  have hzc : remDeg g result c = 0 := hinv.zeroed c (by simp)
  have hqle : ∀ v ∈ queue, deg v ≤ 0 := by
    intro v hv
    rw [hinv.degEq]
    have h0 := hinv.zeroed v (by simp [hv])
    simp [h0]
  have hremE := remDeg_append g hwf.keysNodup result c hcR
  have hdeg1 := stepFold_deg c (graphGet g c) deg queue
  have hmem1 := stepFold_mem c (graphGet g c) deg queue
  constructor
  · rw [List.nodup_append]
    refine ⟨hRc, stepFold_nodup c _ deg queue hqnd hqle, ?_⟩
    intro x hx hx2
    rcases (hmem1 x).mp hx2 with h | ⟨h1, h2, h3⟩
    · exact hdisj hx h
    · have hold : remDeg g result x = 0 := hinv.zeroed x (hlift x hx)
      rw [hinv.degEq, hold] at h2
      simp at h2
  · intro v hv
    rcases List.mem_append.mp hv with hv | hv
    · exact hinv.sub v (hlift v hv)
    · rcases (hmem1 v).mp hv with h | ⟨h1, h2, h3⟩
      · exact hinv.sub v (by simp [h])
      · have hcnt : 0 < (graphGet g c).count v := by
          have h4 : (0 : Int) < ((graphGet g c).count v : Int) := lt_of_lt_of_le one_pos (le_trans h2 h3)
          exact_mod_cast h4
        have hvmem : v ∈ graphGet g c := List.count_pos_iff.mp hcnt
        obtain ⟨ds, hds, hvds⟩ := graphGet_mem hvmem
        exact ((hwf.closed _ hds).2) v hvds
  · intro v
    rw [hdeg1 v, hinv.degEq v, hremE v]
    by_cases hv : v = c
    · rw [if_pos hv, if_pos hv]
      push_cast
      ring
    · rw [if_neg hv, if_neg hv]
      push_cast
      ring
  · intro v hv
    rcases List.mem_append.mp hv with hv | hv
    · have hold : remDeg g result v = 0 := hinv.zeroed v (hlift v hv)
      have hE := hremE v
      omega
    · rcases (hmem1 v).mp hv with h | ⟨h1, h2, h3⟩
      · have hold : remDeg g result v = 0 := hinv.zeroed v (by simp [h])
        have hE := hremE v
        omega
      · have hE := hremE v
        rw [if_neg h1] at hE
        rw [hinv.degEq] at h3
        have h3n : remDeg g result v ≤ (graphGet g c).count v := by exact_mod_cast h3
        omega
  · intro u v huv hune hv
    rcases List.mem_append.mp hv with hvR | hvc
    · obtain ⟨huR, hidx⟩ := hinv.ordered u v huv hune hvR
      refine ⟨List.mem_append_left _ huR, ?_⟩
      rw [List.indexOf_append_of_mem huR, List.indexOf_append_of_mem hvR]
      exact hidx
    · rw [List.mem_singleton] at hvc
      subst hvc
      have huR : u ∈ result := by
        by_contra huR
        obtain ⟨ds, hds, hvds⟩ := graphGet_mem huv
        have hle2 := remDeg_entry_le hds result huR v
        have hE : inDegEntry v (u, ds) = ds.count v := by
          unfold inDegEntry
          exact if_neg hune
        rw [hE, hzc] at hle2
        have hcnt : 0 < ds.count v := List.count_pos_iff.mpr hvds
        omega
      refine ⟨List.mem_append_left _ huR, ?_⟩
      rw [List.indexOf_append_of_mem huR, indexOf_append_absent hcR,
        List.indexOf_cons_self]
      have hlt := List.indexOf_lt_length.mpr huR
      omega

theorem kahnLoop_sound {g : List (String × List String)} {ts : List String}
    (hwf : GraphWF g ts) :
    ∀ (fuel : Nat) (queue result : List String) (deg : String → Int)
      (res : List String),
      KahnInv g ts queue result deg →
      kahnLoop g fuel queue result deg = some res →
      res.Nodup ∧ (∀ v ∈ res, v ∈ ts) ∧
        ∀ u v, v ∈ graphGet g u → u ≠ v → v ∈ res →
          u ∈ res ∧ res.indexOf u < res.indexOf v := by
  intro fuel
  induction fuel with
  | zero =>
    intro queue result deg res hinv h
    cases queue with
    | nil =>
      have hres : result = res := by
        injection h
      subst hres
      refine ⟨?_, ?_, hinv.ordered⟩
      · have h2 := hinv.nodup
        rwa [List.append_nil] at h2
      · intro v hv
        exact hinv.sub v (by rw [List.append_nil]; exact hv)
    | cons c q => cases h
  | succ f ihf =>
    intro queue result deg res hinv h
    cases queue with
    | nil =>
      have hres : result = res := by
        injection h
      subst hres
      refine ⟨?_, ?_, hinv.ordered⟩
      · have h2 := hinv.nodup
        rwa [List.append_nil] at h2
      · intro v hv
        exact hinv.sub v (by rw [List.append_nil]; exact hv)
    | cons c q =>
      have h2 : kahnLoop g f ((graphGet g c).foldl (stepNeighbor c) (deg, q)).2
          (result ++ [c])
          ((graphGet g c).foldl (stepNeighbor c) (deg, q)).1 = some res := h
      exact ihf _ _ _ res (kahnInv_step hwf hinv) h2

theorem lookupG_isSome_mem {α : Type} {g : List (String × α)} {k : String}
    (h : (lookupG g k).isSome) : k ∈ keysOf g := by
  unfold keysOf
  cases hl : lookupG g k with
  | none =>
    rw [hl] at h
    simp at h
  | some v => exact List.mem_map.mpr ⟨(k, v), lookupG_mem hl, rfl⟩

theorem mem_sortStrings {a : String} {l : List String} :
    a ∈ sortStrings l ↔ a ∈ l :=
  (perm_sortStrings l).mem_iff

theorem keysOf_graphAppend_sub (g : List (String × List String))
    (k v : String) : ∀ x ∈ keysOf (graphAppend g k v), x ∈ keysOf g ++ [k] := by
  induction g with
  | nil =>
    intro x hx
    simp [graphAppend, keysOf] at hx
    simp [keysOf, hx]
  | cons e rest ih =>
    obtain ⟨k1, ds⟩ := e
    intro x hx
    unfold graphAppend at hx
    by_cases hk : k1 = k
    · rw [if_pos hk] at hx
      simp only [keysOf, List.map_cons, List.mem_cons] at hx
      rcases hx with hx | hx
      · simp [keysOf, hx]
      · simp only [keysOf, List.map_cons, List.cons_append, List.mem_cons]
        exact Or.inr (by simpa [keysOf] using List.mem_append_left [k] hx)
    · rw [if_neg hk] at hx
      simp only [keysOf, List.map_cons, List.mem_cons] at hx
      rcases hx with hx | hx
      · simp [keysOf, hx]
      · have h2 := ih x (by simpa [keysOf] using hx)
        simp only [keysOf, List.map_cons, List.cons_append, List.mem_cons]
        simpa [keysOf] using Or.inr h2

theorem gUniv_graphAppend {g : List (String × List String)} {ts : List String}
    (hnd : (keysOf g).Nodup) (hcl : ∀ e ∈ g, e.1 ∈ ts ∧ ∀ d ∈ e.2, d ∈ ts)
    {k v : String} (hk : k ∈ ts) (hv : v ∈ ts) :
    (keysOf (graphAppend g k v)).Nodup ∧
      ∀ e ∈ graphAppend g k v, e.1 ∈ ts ∧ ∀ d ∈ e.2, d ∈ ts := by
  induction g with
  | nil =>
    refine ⟨by simp [graphAppend, keysOf], ?_⟩
    intro e he
    simp [graphAppend] at he
    subst he
    exact ⟨hk, by intro d hd; simp at hd; subst hd; exact hv⟩
  | cons e0 rest ih =>
    obtain ⟨k1, ds⟩ := e0
    simp only [keysOf, List.map_cons, List.nodup_cons] at hnd
    have hcl1 := hcl (k1, ds) (List.mem_cons_self _ _)
    have hclr : ∀ e ∈ rest, e.1 ∈ ts ∧ ∀ d ∈ e.2, d ∈ ts :=
      fun e he => hcl e (List.mem_cons_of_mem _ he)
    unfold graphAppend
    by_cases hk1 : k1 = k
    · rw [if_pos hk1]
      refine ⟨?_, ?_⟩
      · simp only [keysOf, List.map_cons, List.nodup_cons]
        exact hnd
      · intro e he
        rcases List.mem_cons.mp he with he | he
        · subst he
          refine ⟨hcl1.1, ?_⟩
          intro d hd
          rcases List.mem_append.mp hd with hd | hd
          · exact hcl1.2 d hd
          · rw [List.mem_singleton] at hd
            subst hd
            exact hv
        · exact hclr e he
    · rw [if_neg hk1]
      obtain ⟨ihnd, ihcl⟩ := ih (by unfold keysOf; exact hnd.2) hclr
      refine ⟨?_, ?_⟩
      · simp only [keysOf, List.map_cons, List.nodup_cons]
        refine ⟨?_, by unfold keysOf at ihnd; exact ihnd⟩
        intro hmem
        have h2 := keysOf_graphAppend_sub rest k v k1 (by unfold keysOf; exact hmem)
        rcases List.mem_append.mp h2 with h2 | h2
        · exact hnd.1 (by unfold keysOf at h2; exact h2)
        · rw [List.mem_singleton] at h2
          exact hk1 h2
      · intro e he
        rcases List.mem_cons.mp he with he | he
        · subst he
          exact hcl1
        · exact ihcl e he

theorem foldl_pres {α β : Type} (P : β → Prop) (Q : α → Prop) (f : β → α → β)
    (hstep : ∀ b a, Q a → P b → P (f b a)) :
    ∀ (l : List α), (∀ a ∈ l, Q a) → ∀ b, P b → P (l.foldl f b) := by
  intro l
  induction l with
  | nil =>
    intro _ b hb
    simpa using hb
  | cons a tl ih =>
    intro hl b hb
    simp only [List.foldl_cons]
    exact ih (fun x hx => hl x (List.mem_cons_of_mem _ hx)) _
      (hstep b a (hl a (List.mem_cons_self _ _)) hb)

/-- The graph assembled by `buildDependencyGraph` is well formed over the
sorted table list. -/
theorem buildDependencyGraph_wf (schemas : List (String × TableSchema))
    (hnd : (schemas.map Prod.fst).Nodup) :
    GraphWF (buildDependencyGraph schemas) (getTableNames schemas) := by
  have htsnd : (getTableNames schemas).Nodup := by
    unfold getTableNames
    exact (perm_sortStrings _).nodup_iff.mpr (by unfold keysOf; exact hnd)
  have hkeys : ∀ k, (lookupG schemas k).isSome = true → k ∈ getTableNames schemas := by
    intro k hk
    unfold getTableNames
    exact mem_sortStrings.mpr (lookupG_isSome_mem hk)
  have hmain : (keysOf (buildDependencyGraph schemas)).Nodup ∧
      ∀ e ∈ buildDependencyGraph schemas,
        e.1 ∈ getTableNames schemas ∧ ∀ d ∈ e.2, d ∈ getTableNames schemas := by
    unfold buildDependencyGraph
    refine foldl_pres
      (fun g => (keysOf g).Nodup ∧
        ∀ e ∈ g, e.1 ∈ getTableNames schemas ∧ ∀ d ∈ e.2, d ∈ getTableNames schemas)
      (fun t => t ∈ getTableNames schemas) _ ?_ _
      (fun t ht => ht) _ ⟨by simp [keysOf], by simp⟩
    intro g table htab hg
    cases hsch : lookupG schemas table with
    | none => exact hg
    | some sch =>
      refine foldl_pres
        (fun g => (keysOf g).Nodup ∧
          ∀ e ∈ g, e.1 ∈ getTableNames schemas ∧ ∀ d ∈ e.2, d ∈ getTableNames schemas)
        (fun _ => True) _ ?_ _ (fun c hc => trivial) _ hg
      intro g2 c _ hg2
      cases hfk : c.Attrs.ForeignKey with
      | none => exact hg2
      | some fk =>
        show (keysOf (if (lookupG schemas fk.Table).isSome then
            graphAppend g2 fk.Table table else g2)).Nodup ∧
          ∀ e ∈ (if (lookupG schemas fk.Table).isSome then
            graphAppend g2 fk.Table table else g2),
            e.1 ∈ getTableNames schemas ∧ ∀ d ∈ e.2, d ∈ getTableNames schemas
        by_cases hS : (lookupG schemas fk.Table).isSome = true
        · rw [if_pos hS]
          exact gUniv_graphAppend hg2.1 hg2.2 (hkeys _ hS) htab
        · rw [if_neg hS]
          exact hg2
  exact ⟨hmain.1, hmain.2, htsnd⟩

/-- The Go recovery loop appends exactly the remaining tables whose
dependents are all self references (and at least one exists). -/
theorem recoveryFold_eq (g : List (String × List String)) (l : List String) :
    ∀ acc : List String,
      l.foldl (fun res2 table =>
        if (graphGet g table).all (fun d => d = table) ∧ graphGet g table ≠ [] then
          res2 ++ [table]
        else res2) acc =
      acc ++ l.filter (fun table =>
        decide ((graphGet g table).all (fun d => d = table) ∧
          graphGet g table ≠ [])) := by
  induction l with
  | nil =>
    intro acc
    simp
  | cons a tl ih =>
    intro acc
    simp only [List.foldl_cons, List.filter_cons]
    by_cases hp : (graphGet g a).all (fun d => d = a) ∧ graphGet g a ≠ []
    · rw [if_pos hp, ih, decide_eq_true hp]
      simp
    · rw [if_neg hp, ih, decide_eq_false hp]
      simp

/-- Every `ok` answer of `topologicalSort` over a well-formed graph is a
permutation of the table list that respects the non-self edges. -/
theorem topologicalSort_ok_sound {g : List (String × List String)}
    {ts : List String} (hwf : GraphWF g ts) (res : List String)
    (h : topologicalSort g ts = Except.ok res) :
    res.Perm ts ∧
      ∀ u v, v ∈ graphGet g u → u ≠ v → res.indexOf u < res.indexOf v := by
  have h2 : (match kahnLoop g (kahnFuel g ts) (ts.filter (fun t => inDeg g t = 0))
      [] (fun t => ((inDeg g t : Int))) with
    | none => Except.error "internal: fuel exhausted"
    | some result =>
      if result.length ≠ ts.length then
        if ((ts.filter (fun t => !(result.contains t))).foldl
            (fun res2 table =>
              if (graphGet g table).all (fun d => d = table) ∧
                  graphGet g table ≠ [] then res2 ++ [table]
              else res2) result).length ≠ ts.length then
          Except.error (cycleInfo (ts.filter (fun t => !(result.contains t))))
        else
          Except.ok ((ts.filter (fun t => !(result.contains t))).foldl
            (fun res2 table =>
              if (graphGet g table).all (fun d => d = table) ∧
                  graphGet g table ≠ [] then res2 ++ [table]
              else res2) result)
      else Except.ok result) = Except.ok res := h
  cases hK : kahnLoop g (kahnFuel g ts) (ts.filter (fun t => inDeg g t = 0)) []
      (fun t => ((inDeg g t : Int))) with
  | none =>
    rw [hK] at h2
    cases h2
  | some R =>
    rw [hK] at h2
    obtain ⟨hRnd, hRsub, hRord⟩ :=
      kahnLoop_sound hwf (kahnFuel g ts) (ts.filter (fun t => inDeg g t = 0)) []
        (fun t => ((inDeg g t : Int))) R (kahnInv_init g ts hwf) hK
    have h3 : (if R.length ≠ ts.length then
        if ((ts.filter (fun t => !(R.contains t))).foldl
            (fun res2 table =>
              if (graphGet g table).all (fun d => d = table) ∧
                  graphGet g table ≠ [] then res2 ++ [table]
              else res2) R).length ≠ ts.length then
          Except.error (cycleInfo (ts.filter (fun t => !(R.contains t))))
        else
          Except.ok ((ts.filter (fun t => !(R.contains t))).foldl
            (fun res2 table =>
              if (graphGet g table).all (fun d => d = table) ∧
                  graphGet g table ≠ [] then res2 ++ [table]
              else res2) R)
      else Except.ok R) = Except.ok res := h2
    by_cases hlen : R.length ≠ ts.length
    · rw [if_pos hlen, recoveryFold_eq] at h3
      by_cases hlen2 : (R ++ (ts.filter (fun t => !(R.contains t))).filter
          (fun table => decide ((graphGet g table).all (fun d => d = table) ∧
            graphGet g table ≠ []))).length ≠ ts.length
      · rw [if_pos hlen2] at h3
        cases h3
      · rw [if_neg hlen2] at h3
        injection h3 with h4
        push_neg at hlen2
        have hsubf : ∀ x ∈ (ts.filter (fun t => !(R.contains t))).filter
            (fun table => decide ((graphGet g table).all (fun d => d = table) ∧
              graphGet g table ≠ [])), x ∈ ts ∧ x ∉ R := by
          intro x hx
          have hx1 := List.mem_of_mem_filter hx
          have hx2 := List.mem_filter.mp hx1
          refine ⟨hx2.1, (contains_false_iff _ _).mp ?_⟩
          have := hx2.2
          simpa using this
        have hFnd : (R ++ (ts.filter (fun t => !(R.contains t))).filter
            (fun table => decide ((graphGet g table).all (fun d => d = table) ∧
              graphGet g table ≠ []))).Nodup := by
          rw [List.nodup_append]
          refine ⟨hRnd, (hwf.tsNodup.filter _).filter _, ?_⟩
          intro x hxR hxf
          exact (hsubf x hxf).2 hxR
        have hFsub : ∀ x ∈ R ++ (ts.filter (fun t => !(R.contains t))).filter
            (fun table => decide ((graphGet g table).all (fun d => d = table) ∧
              graphGet g table ≠ [])), x ∈ ts := by
          intro x hx
          rcases List.mem_append.mp hx with hx | hx
          · exact hRsub x hx
          · exact (hsubf x hx).1
        have hperm : (R ++ (ts.filter (fun t => !(R.contains t))).filter
            (fun table => decide ((graphGet g table).all (fun d => d = table) ∧
              graphGet g table ≠ []))).Perm ts :=
          (hFnd.subperm (fun x hx => hFsub x hx)).perm_of_length_le
            (le_of_eq hlen2.symm)
        rw [← h4]
        refine ⟨hperm, ?_⟩
        intro u v huv hune
        obtain ⟨ds, hds, hvds⟩ := graphGet_mem huv
        have hu_ts : u ∈ ts := (hwf.closed _ hds).1
        have hv_ts : v ∈ ts := (hwf.closed _ hds).2 v hvds
        have hvF := hperm.mem_iff.mpr hv_ts
        have huF := hperm.mem_iff.mpr hu_ts
        rcases List.mem_append.mp hvF with hvR | hvf
        · obtain ⟨huR, hidx⟩ := hRord u v huv hune hvR
          rw [List.indexOf_append_of_mem huR, List.indexOf_append_of_mem hvR]
          exact hidx
        · have huR : u ∈ R := by
            rcases List.mem_append.mp huF with hu | hu
            · exact hu
            · exfalso
              have hp := List.of_mem_filter hu
              have hp2 := of_decide_eq_true hp
              have hall := hp2.1
              simp only [List.all_eq_true, decide_eq_true_eq] at hall
              exact hune (hall v huv).symm
          have hvnR : v ∉ R := (hsubf v hvf).2
          rw [List.indexOf_append_of_mem huR, indexOf_append_absent hvnR]
          have hlt := List.indexOf_lt_length.mpr huR
          omega
    · rw [if_neg hlen] at h3
      injection h3 with h4
      push_neg at hlen
      have hperm : R.Perm ts :=
        (hRnd.subperm (fun x hx => hRsub x hx)).perm_of_length_le
          (le_of_eq hlen.symm)
      rw [← h4]
      refine ⟨hperm, ?_⟩
      intro u v huv hune
      obtain ⟨ds, hds, hvds⟩ := graphGet_mem huv
      have hv_ts : v ∈ ts := (hwf.closed _ hds).2 v hvds
      have hvR := hperm.mem_iff.mpr hv_ts
      exact (hRord u v huv hune hvR).2

theorem inDeg_allSelf (g : List (String × List String))
    (h : ∀ e ∈ g, ∀ d ∈ e.2, d = e.1) (t : String) : inDeg g t = 0 := by
  unfold inDeg
  apply List.sum_eq_zero
  intro x hx
  obtain ⟨e, he, rfl⟩ := List.mem_map.mp hx
  unfold inDegEntry
  by_cases ht : e.1 = t
  · rw [if_pos ht]
  · rw [if_neg ht, List.count_eq_zero]
    intro hmem
    exact ht (h e he t hmem).symm

theorem selfFold (c : String) : ∀ (l : List String), (∀ d ∈ l, d = c) →
    ∀ st : (String → Int) × List String, l.foldl (stepNeighbor c) st = st := by
  intro l
  induction l with
  | nil =>
    intro _ st
    rfl
  | cons d tl ih =>
    intro hl st
    simp only [List.foldl_cons]
    have hd : d = c := hl d (List.mem_cons_self _ _)
    have hstep : stepNeighbor c st d = st := by
      unfold stepNeighbor
      exact if_neg (fun hh => hh hd.symm)
    rw [hstep]
    exact ih (fun x hx => hl x (List.mem_cons_of_mem _ hx)) st

theorem kahnLoop_allSelf {g : List (String × List String)}
    (h : ∀ e ∈ g, ∀ d ∈ e.2, d = e.1) :
    ∀ (q : List String) (fuel : Nat), q.length ≤ fuel →
      ∀ (R : List String) (deg : String → Int),
        kahnLoop g fuel q R deg = some (R ++ q) := by
  intro q
  induction q with
  | nil =>
    intro fuel _ R deg
    cases fuel with
    | zero => simp [kahnLoop]
    | succ f => simp [kahnLoop]
  | cons c qt ih =>
    intro fuel hfuel R deg
    cases fuel with
    | zero => simp at hfuel
    | succ f =>
      have hall : ∀ d ∈ graphGet g c, d = c := by
        intro d hd
        obtain ⟨ds, hds, hdds⟩ := graphGet_mem hd
        exact h _ hds d hdds
      have hfold := selfFold c (graphGet g c) hall (deg, qt)
      have h2 : kahnLoop g (f + 1) (c :: qt) R deg =
          kahnLoop g f ((graphGet g c).foldl (stepNeighbor c) (deg, qt)).2
            (R ++ [c]) ((graphGet g c).foldl (stepNeighbor c) (deg, qt)).1 := rfl
      rw [h2, hfold]
      have hlen : qt.length ≤ f := by
        simp only [List.length_cons] at hfuel
        omega
      have h3 := ih f hlen (R ++ [c]) deg
      show kahnLoop g f qt (R ++ [c]) deg = some (R ++ c :: qt)
      rw [h3]
      simp

/-- When every stored dependent is a self reference, the sort succeeds
and returns the table list unchanged. -/
theorem topologicalSort_allSelf (g : List (String × List String))
    (ts : List String) (h : ∀ e ∈ g, ∀ d ∈ e.2, d = e.1) :
    topologicalSort g ts = Except.ok ts := by
  have hfilter : ts.filter (fun t => inDeg g t = 0) = ts :=
    List.filter_eq_self.mpr (fun a _ => decide_eq_true (inDeg_allSelf g h a))
  have hK : kahnLoop g (kahnFuel g ts) (ts.filter (fun t => inDeg g t = 0)) []
      (fun t => ((inDeg g t : Int))) = some ts := by
    rw [hfilter]
    have h4 := kahnLoop_allSelf h ts (kahnFuel g ts)
      (by unfold kahnFuel; omega) [] (fun t => ((inDeg g t : Int)))
    simpa using h4
  have hmain : (match kahnLoop g (kahnFuel g ts)
      (ts.filter (fun t => inDeg g t = 0)) [] (fun t => ((inDeg g t : Int))) with
    | none => Except.error "internal: fuel exhausted"
    | some result =>
      if result.length ≠ ts.length then
        if ((ts.filter (fun t => !(result.contains t))).foldl
            (fun res2 table =>
              if (graphGet g table).all (fun d => d = table) ∧
                  graphGet g table ≠ [] then res2 ++ [table]
              else res2) result).length ≠ ts.length then
          Except.error (cycleInfo (ts.filter (fun t => !(result.contains t))))
        else
          Except.ok ((ts.filter (fun t => !(result.contains t))).foldl
            (fun res2 table =>
              if (graphGet g table).all (fun d => d = table) ∧
                  graphGet g table ≠ [] then res2 ++ [table]
              else res2) result)
      else Except.ok result) = Except.ok ts := by
    rw [hK]
    dsimp only
    rw [if_neg (fun hh => hh rfl)]
  exact hmain

/-- **C8**: over the dependency graph built from the declared schemas
(edges refTable → referring table, self references ignored), every `ok`
answer of `topologicalSort` is a total order on all declared tables in
which the source of every non-self edge is placed before its target; and
when every stored dependent is a self reference the sort succeeds with no
cycle error, returning the sorted table list — in particular a table
whose only dependency is a self reference is sorted. -/
theorem topologicalSort_correct (schemas : List (String × TableSchema))
    (hnd : (schemas.map Prod.fst).Nodup) :
    (∀ res, topologicalSort (buildDependencyGraph schemas)
          (getTableNames schemas) = Except.ok res →
        res.Perm (getTableNames schemas) ∧
          ∀ u v, v ∈ graphGet (buildDependencyGraph schemas) u → u ≠ v →
            res.indexOf u < res.indexOf v) ∧
      ((∀ e ∈ buildDependencyGraph schemas, ∀ d ∈ e.2, d = e.1) →
        topologicalSort (buildDependencyGraph schemas) (getTableNames schemas) =
          Except.ok (getTableNames schemas)) := by
  have hwf := buildDependencyGraph_wf schemas hnd
  exact ⟨fun res h => topologicalSort_ok_sound hwf res h,
    fun hself => topologicalSort_allSelf _ _ hself⟩

/-- Witness for `topologicalSort_correct` at the two-table demo schemas. -/
theorem topologicalSort_correct_witness :
    (sorterDemoSchemas.map Prod.fst).Nodup ∧
      ((∀ res, topologicalSort (buildDependencyGraph sorterDemoSchemas)
            (getTableNames sorterDemoSchemas) = Except.ok res →
          res.Perm (getTableNames sorterDemoSchemas) ∧
            ∀ u v, v ∈ graphGet (buildDependencyGraph sorterDemoSchemas) u →
              u ≠ v → res.indexOf u < res.indexOf v) ∧
        ((∀ e ∈ buildDependencyGraph sorterDemoSchemas, ∀ d ∈ e.2, d = e.1) →
          topologicalSort (buildDependencyGraph sorterDemoSchemas)
              (getTableNames sorterDemoSchemas) =
            Except.ok (getTableNames sorterDemoSchemas))) :=
  ⟨by decide, topologicalSort_correct sorterDemoSchemas (by decide)⟩
